import Mathlib

/-!
Verification of the JSON-construction component of the repository
(file src/nodes/JsonBuilderNode.py, class JsonBuilderNode).

The development shallowly embeds the Python code:

* Python/JSON values are the inductive type JValue.  The Python float
  produced by parsing a decimal literal is modelled exactly as a decimal
  m / 10 ^ e in lowest form (abstracting from IEEE-754 rounding, which the
  repository never observes in the properties below); the special values
  produced by the json module (Infinity, -Infinity, NaN) are their own
  constructors.
* Python dicts are ordered association lists with unique keys; insertion
  and update keep the position of an existing key, as CPython dicts do.
* json.loads is modelled by jsonLoads (a recursive-descent reading of the
  CPython json scanner: RFC 8259 plus Infinity, -Infinity and NaN, whitespace
  set " \t\n\r", strings rejecting raw control characters), and
  json.dumps with ensure_ascii=False by dumps (default separators
  ", " and ": " in compact mode, indent=2 pretty mode, sort_keys
  sorting entries at every level by the string order on keys).
* Methods parse_value, safe_json_parse, merge_json_objects and build_json
  are translated line by line from JsonBuilderNode.py.
* The in-place mutation behaviour of merge_json_objects (the shallow
  dict.copy at its line 140 combined with dict.update at its line 156) is
  additionally modelled on an explicit heap of dict addresses, in
  namespace HeapModel.
-/

namespace JsonBuilder

/-! ### Characters and Python str helpers -/

/-- The whitespace characters stripped by Python str.strip (ASCII part;
the repository only deals with ASCII whitespace in the modelled paths). -/
def pyIsSpace (c : Char) : Bool :=
  c = ' ' || c = '\t' || c = '\n' || c = '\r' || c = '\x0b' || c = '\x0c'

/-- Python str.strip on a list of characters. -/
def pyStripList (l : List Char) : List Char :=
  ((l.dropWhile pyIsSpace).reverse.dropWhile pyIsSpace).reverse

/-- Python str.strip. -/
def pyStrip (s : String) : String := ⟨pyStripList s.data⟩

/-- Python str.lower, restricted to ASCII (the repository compares the
result only against the ASCII words true, false, null and the letter e). -/
def pyLowerChar (c : Char) : Char :=
  if 'A' ≤ c ∧ c ≤ 'Z' then Char.ofNat (c.toNat + 32) else c

def pyLowerList (l : List Char) : List Char := l.map pyLowerChar

def isDigitChar (c : Char) : Bool := '0' ≤ c ∧ c ≤ '9'

/-! ### Decimal digits of natural numbers -/

def digitChar (n : Nat) : Char := Char.ofNat (48 + n)

/-- Fueled digit production (the fuel makes the recursion structural, so
the kernel can evaluate it; n + 1 fuel always suffices for n). -/
def natDigitsF : Nat → Nat → List Char
  | 0, _ => []
  | fuel + 1, n =>
    if n < 10 then [digitChar n]
    else natDigitsF fuel (n / 10) ++ [digitChar (n % 10)]

/-- The decimal digit string of a natural number, most significant digit
first, no leading zeros (except for 0 itself).  This is what both the
Python repr of an int and the json module emit. -/
def natDigits (n : Nat) : List Char := natDigitsF (n + 1) n

/-- Numeric value of a digit character. -/
def digitVal (c : Char) : Nat := c.toNat - 48

/-- Value of a digit string (most significant first). -/
def digitsVal (l : List Char) : Nat := l.foldl (fun a c => a * 10 + digitVal c) 0

/-! ### JSON / Python values -/

/-- The dynamic values the component handles.  float m e stands for the
exact decimal m / 10 ^ e; the pair is kept normalized (normFloat below). -/
inductive JValue where
  | str (s : String)
  | int (n : Int)
  | float (m : Int) (e : Nat)
  | inf
  | negInf
  | nan
  | bool (b : Bool)
  | null
  | arr (elts : List JValue)
  | obj (entries : List (String × JValue))

/-- Normalize a decimal mantissa/exponent pair: strip factors of ten that
are matched by the exponent, and send every representation of zero
to (0, 0). -/
def normFloat : Int → Nat → Int × Nat
  | m, 0 => (m, 0)
  | m, e + 1 =>
    if m = 0 then (0, 0)
    else if m % 10 = 0 then normFloat (m / 10) e
    else (m, e + 1)

/-! ### Python dicts as ordered association lists -/

/-- Lookup in a Python dict (d.get / d[k] / the in test). -/
def dictGet {β : Type} : List (String × β) → String → Option β
  | [], _ => none
  | (k0, v0) :: rest, k => if k0 = k then some v0 else dictGet rest k

/-- Python dict assignment d[k] = v: replaces in place when the key
exists (keeping its position), appends otherwise. -/
def dictSet {β : Type} : List (String × β) → String → β → List (String × β)
  | [], k, v => [(k, v)]
  | (k0, v0) :: rest, k, v =>
    if k0 = k then (k0, v) :: rest else (k0, v0) :: dictSet rest k v

/-- Python dict.update: assign every pair of the second dict, in order. -/
def pyUpdate {β : Type} (base upd : List (String × β)) : List (String × β) :=
  upd.foldl (fun acc kv => dictSet acc kv.1 kv.2) base

/-- Building a dict from a pair list (what the json decoder does with the
member list of a JSON object; a later duplicate key overwrites the value
kept at the first position of that key). -/
def dictOfPairs {β : Type} (l : List (String × β)) : List (String × β) :=
  l.foldl (fun acc kv => dictSet acc kv.1 kv.2) []

/-- The keys of a dict, in order. -/
def dictKeys {β : Type} (l : List (String × β)) : List String := l.map (fun kv => kv.1)

/-! ### json.dumps with ensure_ascii=False -/

def hexDigitChar (n : Nat) : Char :=
  if n < 10 then digitChar n else Char.ofNat (87 + n)

/-- Escaping of one character inside a JSON string, as the json encoder
does with ensure_ascii=False: only the quote, the backslash and control
characters below U+0020 are escaped, everything else is kept literally. -/
def escapeChar (c : Char) : List Char :=
  if c = '"' then ['\\', '"']
  else if c = '\\' then ['\\', '\\']
  else if c = '\x08' then ['\\', 'b']
  else if c = '\x0c' then ['\\', 'f']
  else if c = '\n' then ['\\', 'n']
  else if c = '\r' then ['\\', 'r']
  else if c = '\t' then ['\\', 't']
  else if c.toNat < 32 then
    ['\\', 'u', '0', '0', hexDigitChar (c.toNat / 16), hexDigitChar (c.toNat % 16)]
  else [c]

def escapeList : List Char → List Char
  | [] => []
  | c :: rest => escapeChar c ++ escapeList rest

/-- A JSON string literal: quote, escaped body, quote. -/
def dumpStr (s : String) : List Char := '"' :: (escapeList s.data ++ ['"'])

/-- Decimal notation of the float m / 10 ^ e (m a natural number), as the
repr of a Python float shows it for values of moderate magnitude (the
json encoder uses float.__repr__; the scientific notation that repr
switches to for very large or very small magnitudes is abstracted away —
the decimal notation denotes the same value and none of the verified
properties depend on that formatting switch). -/
def dumpFloatAbs (m : Nat) (e : Nat) : List Char :=
  let ds := natDigits m
  if e = 0 then ds ++ ['.', '0']
  else if e < ds.length then ds.take (ds.length - e) ++ '.' :: ds.drop (ds.length - e)
  else '0' :: '.' :: (List.replicate (e - ds.length) '0' ++ ds)

def dumpFloat (m : Int) (e : Nat) : List Char :=
  if m < 0 then '-' :: dumpFloatAbs m.natAbs e else dumpFloatAbs m.toNat e

/-- repr of a Python int. -/
def dumpInt (n : Int) : List Char :=
  if n < 0 then '-' :: natDigits n.natAbs else natDigits n.toNat

/-- Indentation for indent=2. -/
def indentChars (lv : Nat) : List Char := List.replicate (2 * lv) ' '

/-- Newline plus indentation in pretty mode, nothing in compact mode. -/
def nlIndent (p : Bool) (lv : Nat) : List Char :=
  if p then '\n' :: indentChars lv else []

/-- The separator written between two array items or two object members:
json.dumps uses item separator ", " without indent and "," followed by a
newline and the indentation with indent=2. -/
def itemSep (p : Bool) (lv : Nat) : List Char :=
  if p then ',' :: '\n' :: indentChars lv else [',', ' ']

/-- One object member: escaped key, ": ", value text. -/
def entryChars (k : String) (vtext : List Char) : List Char :=
  dumpStr k ++ ':' :: ' ' :: vtext

mutual

/-- Serialization of one value: json.dumps(v, ensure_ascii=False) with
indent=2 when p is true, at nesting level lv.  The key/value separator is
": " in both modes (the json default). -/
def dumpVal (p : Bool) (lv : Nat) : JValue → List Char
  | .str s => dumpStr s
  | .int n => dumpInt n
  | .float m e => dumpFloat m e
  | .inf => ['I', 'n', 'f', 'i', 'n', 'i', 't', 'y']
  | .negInf => ['-', 'I', 'n', 'f', 'i', 'n', 'i', 't', 'y']
  | .nan => ['N', 'a', 'N']
  | .bool b => if b then ['t', 'r', 'u', 'e'] else ['f', 'a', 'l', 's', 'e']
  | .null => ['n', 'u', 'l', 'l']
  | .arr [] => ['[', ']']
  | .arr (x :: t) =>
    '[' :: (nlIndent p (lv + 1) ++ dumpVal p (lv + 1) x ++ dumpElemsRest p (lv + 1) t ++
      nlIndent p lv ++ [']'])
  | .obj [] => ['\x7b', '\x7d']
  | .obj (kv :: t) =>
    '\x7b' :: (nlIndent p (lv + 1) ++ entryChars kv.1 (dumpVal p (lv + 1) kv.2) ++
      dumpEntriesRest p (lv + 1) t ++ nlIndent p lv ++ ['\x7d'])

/-- The items of an array after the first, each preceded by the item
separator. -/
def dumpElemsRest (p : Bool) (lv : Nat) : List JValue → List Char
  | [] => []
  | y :: t => itemSep p lv ++ dumpVal p lv y ++ dumpElemsRest p lv t

/-- The members of an object after the first, each preceded by the item
separator. -/
def dumpEntriesRest (p : Bool) (lv : Nat) : List (String × JValue) → List Char
  | [] => []
  | kv :: t => itemSep p lv ++ entryChars kv.1 (dumpVal p lv kv.2) ++ dumpEntriesRest p lv t

end

mutual

/-- sort_keys=True: the encoder emits the members of every object sorted
by key (Python sorted on strings, i.e. lexicographic order on code
points); modelled by sorting the whole tree first. -/
def sortKeysV : JValue → JValue
  | .arr xs => .arr (sortKeysL xs)
  | .obj es => .obj ((sortKeysE es).mergeSort (fun a b => decide (a.1 ≤ b.1)))
  | v => v

def sortKeysL : List JValue → List JValue
  | [] => []
  | x :: t => sortKeysV x :: sortKeysL t

def sortKeysE : List (String × JValue) → List (String × JValue)
  | [] => []
  | (k, v) :: t => (k, sortKeysV v) :: sortKeysE t

end

/-- json.dumps(v, ensure_ascii=False, sort_keys, and indent=2 iff pretty),
as called by build_json. -/
def dumps (pretty sortKeys : Bool) (v : JValue) : String :=
  ⟨dumpVal pretty 0 (if sortKeys then sortKeysV v else v)⟩

/-! ### json.loads

A recursive-descent reading of the CPython json scanner with its default
settings: RFC 8259 grammar extended with the constants Infinity,
-Infinity and NaN, whitespace " \t\n\r", strict strings (raw control
characters below U+0020 rejected), arbitrary-precision integers, and
objects built by inserting the member pairs in textual order (a duplicate
key keeps its first position and the last value). -/

def jsonWs (c : Char) : Bool := c = ' ' || c = '\t' || c = '\n' || c = '\r'

def skipWs (l : List Char) : List Char := l.dropWhile jsonWs

def hexVal? (c : Char) : Option Nat :=
  if isDigitChar c then some (digitVal c)
  else if 'a' ≤ c ∧ c ≤ 'f' then some (c.toNat - 87)
  else if 'A' ≤ c ∧ c ≤ 'F' then some (c.toNat - 55)
  else none

def hex4? (a b c d : Char) : Option Nat := do
  let x ← hexVal? a
  let y ← hexVal? b
  let z ← hexVal? c
  let w ← hexVal? d
  pure (((x * 16 + y) * 16 + z) * 16 + w)

/-- CPython keeps an unpaired surrogate code unit in the decoded string;
a Lean Char cannot hold a surrogate code point, so the replacement
character stands in for it (no verified property depends on it). -/
def loneSurrogateChar : Char := Char.ofNat 0xFFFD

/-- Does the input start with an escape \uXXXX denoting a low surrogate?
If so return its value (the escape occupies the first six characters). -/
def lowSurrogate? : List Char → Option Nat
  | '\\' :: 'u' :: a :: b :: c :: d :: _ =>
    match hex4? a b c d with
    | some v2 => if 0xDC00 ≤ v2 ∧ v2 < 0xE000 then some v2 else none
    | none => none
  | _ => none

mutual

/-- Body of a JSON string literal, after the opening quote: returns the
decoded characters and the input after the closing quote.  The fuel makes
the recursion structural; every step consumes at least one character, so
the callers pass length + 1 fuel, which always suffices. -/
def parseStrBody : Nat → List Char → Option (List Char × List Char)
  | 0, _ => none
  | _ + 1, [] => none
  | fuel + 1, c :: rest =>
    if c = '"' then some ([], rest)
    else if c = '\\' then parseEsc fuel rest
    else if c.toNat < 32 then none
    else (parseStrBody fuel rest).map (fun p => (c :: p.1, p.2))

/-- One escape sequence, after the backslash. -/
def parseEsc : Nat → List Char → Option (List Char × List Char)
  | 0, _ => none
  | _ + 1, [] => none
  | fuel + 1, e :: rest =>
    if e = '"' then (parseStrBody fuel rest).map (fun p => ('"' :: p.1, p.2))
    else if e = '\\' then (parseStrBody fuel rest).map (fun p => ('\\' :: p.1, p.2))
    else if e = '/' then (parseStrBody fuel rest).map (fun p => ('/' :: p.1, p.2))
    else if e = 'b' then (parseStrBody fuel rest).map (fun p => ('\x08' :: p.1, p.2))
    else if e = 'f' then (parseStrBody fuel rest).map (fun p => ('\x0c' :: p.1, p.2))
    else if e = 'n' then (parseStrBody fuel rest).map (fun p => ('\n' :: p.1, p.2))
    else if e = 'r' then (parseStrBody fuel rest).map (fun p => ('\r' :: p.1, p.2))
    else if e = 't' then (parseStrBody fuel rest).map (fun p => ('\t' :: p.1, p.2))
    else if e = 'u' then
      match rest with
      | a :: b :: c :: d :: rest4 =>
        match hex4? a b c d with
        | none => none
        | some v =>
          if 0xD800 ≤ v ∧ v < 0xDC00 then
            match lowSurrogate? rest4 with
            | some v2 =>
              (parseStrBody fuel (rest4.drop 6)).map (fun p =>
                (Char.ofNat (0x10000 + (v - 0xD800) * 0x400 + (v2 - 0xDC00)) :: p.1, p.2))
            | none => (parseStrBody fuel rest4).map (fun p => (loneSurrogateChar :: p.1, p.2))
          else if 0xDC00 ≤ v ∧ v < 0xE000 then
            (parseStrBody fuel rest4).map (fun p => (loneSurrogateChar :: p.1, p.2))
          else (parseStrBody fuel rest4).map (fun p => (Char.ofNat v :: p.1, p.2))
      | _ => none
    else none

end

/-- The integer-part digits of a JSON number: a single 0, or a nonzero
digit followed by a digit run (the scanner never reads digits after a
leading 0). -/
def parseUIntDigits : List Char → Option (List Char × List Char)
  | [] => none
  | c :: rest =>
    if c = '0' then some (['0'], rest)
    else if isDigitChar c then
      let p := rest.span isDigitChar
      some (c :: p.1, p.2)
    else none

/-- The fraction part: consumed only when a dot directly followed by a
digit is present, otherwise nothing is consumed. -/
def scanFrac : List Char → List Char × List Char
  | '.' :: d :: rest =>
    if isDigitChar d then
      let p := rest.span isDigitChar
      (d :: p.1, p.2)
    else ([], '.' :: d :: rest)
  | cs => ([], cs)

/-- The exponent part: consumed only when e or E, an optional sign and at
least one digit are present, otherwise nothing is consumed. -/
def scanExp : List Char → Option Int × List Char
  | e :: rest =>
    if e = 'e' ∨ e = 'E' then
      let (sgn, rest1) : Int × List Char :=
        match rest with
        | '+' :: r => (1, r)
        | '-' :: r => (-1, r)
        | r => (1, r)
      match rest1.span isDigitChar with
      | ([], _) => (none, e :: rest)
      | (ds, r2) => (some (sgn * (digitsVal ds : Int)), r2)
    else (none, e :: rest)
  | [] => (none, [])

/-- A number with fraction or exponent denotes the exact decimal
mantissa * 10 ^ exp10; it is stored normalized.  (CPython converts it
with strtod to the nearest double, an overflowing exponent giving an
infinity; this model keeps the exact decimal value.) -/
def mkFloatVal (m1 : Int) (e10 : Int) : JValue :=
  if 0 ≤ e10 then .float (m1 * 10 ^ e10.toNat) 0
  else
    let p := normFloat m1 (-e10).toNat
    .float p.1 p.2

/-- A number token after the optional minus sign: integer part, optional
fraction, optional exponent.  Yields an int when neither fraction nor
exponent is present, a float otherwise. -/
def parseNumTail (neg : Bool) (cs1 : List Char) : Option (JValue × List Char) :=
  match parseUIntDigits cs1 with
  | none => none
  | some (ip, cs2) =>
    let f := scanFrac cs2
    let x := scanExp f.2
    match f.1, x.1 with
    | [], none =>
      some (.int (if neg then -(digitsVal ip : Int) else (digitsVal ip : Int)), x.2)
    | fr, ex =>
      let m0 : Int := ((digitsVal ip * 10 ^ fr.length + digitsVal fr : Nat) : Int)
      let m1 : Int := if neg then -m0 else m0
      some (mkFloatVal m1 (ex.getD 0 - fr.length), x.2)

/-- A JSON number token: optional minus, then the number tail. -/
def parseNumber (cs : List Char) : Option (JValue × List Char) :=
  match cs with
  | [] => none
  | c :: rest =>
    if c = '-' then parseNumTail true rest else parseNumTail false (c :: rest)

/-- Literal recognition: returns the input after the literal word. -/
def dropLit : List Char → List Char → Option (List Char)
  | [], cs => some cs
  | _ :: _, [] => none
  | l :: ls, c :: cs => if c = l then dropLit ls cs else none

def nullLit : List Char := ['n', 'u', 'l', 'l']
def trueLit : List Char := ['t', 'r', 'u', 'e']
def falseLit : List Char := ['f', 'a', 'l', 's', 'e']
def nanLit : List Char := ['N', 'a', 'N']
def infLit : List Char := ['I', 'n', 'f', 'i', 'n', 'i', 't', 'y']
def negInfLit : List Char := ['-', 'I', 'n', 'f', 'i', 'n', 'i', 't', 'y']

mutual

/-- One JSON value, fueled (the fuel only bounds the recursion depth; the
top entry point passes more fuel than any parse can consume). -/
def parseVal : Nat → List Char → Option (JValue × List Char)
  | 0, _ => none
  | fuel + 1, cs =>
    match cs with
    | [] => none
    | c :: rest =>
      if c = '"' then (parseStrBody (rest.length + 1) rest).map (fun p => (.str ⟨p.1⟩, p.2))
      else if c = '\x7b' then
        let cs1 := skipWs rest
        if cs1.head? = some '\x7d' then some (.obj [], cs1.tail)
        else (parseMembers fuel cs1).map (fun p => (.obj (dictOfPairs p.1), p.2))
      else if c = '[' then
        let cs1 := skipWs rest
        if cs1.head? = some ']' then some (.arr [], cs1.tail)
        else (parseItems fuel cs1).map (fun p => (.arr p.1, p.2))
      else
        match dropLit nullLit (c :: rest) with
        | some r => some (.null, r)
        | none =>
          match dropLit trueLit (c :: rest) with
          | some r => some (.bool true, r)
          | none =>
            match dropLit falseLit (c :: rest) with
            | some r => some (.bool false, r)
            | none =>
              match dropLit nanLit (c :: rest) with
              | some r => some (.nan, r)
              | none =>
                match dropLit infLit (c :: rest) with
                | some r => some (.inf, r)
                | none =>
                  match dropLit negInfLit (c :: rest) with
                  | some r => some (.negInf, r)
                  | none => parseNumber (c :: rest)

/-- The items of a non-empty array, starting after the opening bracket
(whitespace already significant: the caller passes the input with leading
whitespace kept, this function skips it before each item). -/
def parseItems : Nat → List Char → Option (List JValue × List Char)
  | 0, _ => none
  | fuel + 1, cs =>
    match parseVal fuel (skipWs cs) with
    | none => none
    | some (v, r) =>
      match skipWs r with
      | [] => none
      | c :: r2 =>
        if c = ']' then some ([v], r2)
        else if c = ',' then (parseItems fuel r2).map (fun p => (v :: p.1, p.2))
        else none

/-- The members of a non-empty object, starting at the (already
whitespace-skipped) first key. -/
def parseMembers : Nat → List Char → Option (List (String × JValue) × List Char)
  | 0, _ => none
  | fuel + 1, cs =>
    match cs with
    | [] => none
    | c :: rest =>
      if c = '"' then
        match parseStrBody (rest.length + 1) rest with
        | none => none
        | some (k, r1) =>
          match skipWs r1 with
          | [] => none
          | c2 :: r2 =>
            if c2 = ':' then
              match parseVal fuel (skipWs r2) with
              | none => none
              | some (v, r3) =>
                match skipWs r3 with
                | [] => none
                | c3 :: r4 =>
                  if c3 = '\x7d' then some ([(⟨k⟩, v)], r4)
                  else if c3 = ',' then
                    (parseMembers fuel (skipWs r4)).map (fun p => ((⟨k⟩, v) :: p.1, p.2))
                  else none
            else none
      else none

end

/-- json.loads: parse one value surrounded by optional whitespace; any
trailing non-whitespace input is an error (Extra data). -/
def jsonLoads (s : String) : Option JValue :=
  match parseVal (s.data.length + 1) (skipWs s.data) with
  | none => none
  | some (v, rest) => if skipWs rest = [] then some v else none

/-! ### Python int() and float() on strings

Models of the CPython string-to-number conversions for ASCII inputs: an
optional sign, decimal digits with single underscores allowed between
digits, float() additionally with fraction, exponent and the words inf,
infinity and nan (case insensitive).  Unicode digits are out of scope of
the model. -/

/-- A run of digits possibly containing single underscores between
digits (tail position: the run may also be over). -/
def underTail : List Char → Bool
  | [] => true
  | c :: rest =>
    if c = '_' then
      match rest with
      | d :: rest2 => isDigitChar d && underTail rest2
      | [] => false
    else isDigitChar c && underTail rest

/-- A nonempty digit run with optional single underscores between digits. -/
def underDigits : List Char → Bool
  | [] => false
  | c :: rest => isDigitChar c && underTail rest

def stripUnderscores (l : List Char) : List Char := l.filter (fun c => c ≠ '_')

/-- Python int(s) for an already-stripped ASCII string. -/
def pyInt? (l : List Char) : Option Int :=
  match l with
  | [] => none
  | c :: rest =>
    let s := if c = '-' then (true, rest) else if c = '+' then (false, rest) else (false, c :: rest)
    if underDigits s.2 then
      let n : Int := digitsVal (stripUnderscores s.2)
      some (if s.1 then -n else n)
    else none

/-- Split at the first e or E. -/
def splitExp : List Char → List Char × Option (List Char)
  | [] => ([], none)
  | c :: rest =>
    if c = 'e' ∨ c = 'E' then ([], some rest)
    else
      let p := splitExp rest
      (c :: p.1, p.2)

/-- Split at the first dot. -/
def splitDot : List Char → List Char × Option (List Char)
  | [] => ([], none)
  | c :: rest =>
    if c = '.' then ([], some rest)
    else
      let p := splitDot rest
      (c :: p.1, p.2)

/-- The exponent written in a float literal. -/
def pyFloatExp? : List Char → Option Int
  | [] => none
  | c :: rest =>
    let s := if c = '-' then (true, rest) else if c = '+' then (false, rest) else (false, c :: rest)
    if underDigits s.2 then
      let n : Int := digitsVal (stripUnderscores s.2)
      some (if s.1 then -n else n)
    else none

/-- Python float(s) for an already-stripped ASCII string; exact-decimal
result (nearest-double rounding abstracted away, see JValue.float). -/
def pyFloat? (l : List Char) : Option JValue :=
  match l with
  | [] => none
  | c :: rest =>
    let s : Int × List Char :=
      if c = '-' then (-1, rest) else if c = '+' then (1, rest) else (1, c :: rest)
    let low := pyLowerList s.2
    if low = ['i', 'n', 'f'] ∨ low = ['i', 'n', 'f', 'i', 'n', 'i', 't', 'y'] then
      some (if s.1 = -1 then .negInf else .inf)
    else if low = ['n', 'a', 'n'] then some .nan
    else
      let me := splitExp s.2
      let ifr := splitDot me.1
      let fr := (ifr.2.getD []).filter (fun c => c ≠ '_')
      let mantOk :=
        match ifr.2 with
        | none => underDigits ifr.1
        | some f =>
          (ifr.1 = [] || underDigits ifr.1) && (f = [] || underDigits f) &&
            !(ifr.1 = [] && f = [])
      let expv : Option (Option Int) :=
        match me.2 with
        | none => some none
        | some e => (pyFloatExp? e).map some
      match expv with
      | none => none
      | some ex =>
        if mantOk then
          let m0 : Int := ((digitsVal (stripUnderscores ifr.1) * 10 ^ fr.length + digitsVal fr : Nat) : Int)
          some (mkFloatVal (s.1 * m0) (ex.getD 0 - fr.length))
        else none

/-! ### The JsonBuilderNode methods -/

def squoteChar : Char := Char.ofNat 39

/-- Lines 97-103 of parse_value: strip one pair of matching double or
single quotes, otherwise return the string itself. -/
def stripQuotes (v : List Char) : JValue :=
  if (v.head? = some '"' ∧ v.getLast? = some '"') ∨
      (v.head? = some squoteChar ∧ v.getLast? = some squoteChar) then
    .str ⟨(v.drop 1).dropLast⟩
  else .str ⟨v⟩

/-- JsonBuilderNode.parse_value (lines 56-103), translated clause by
clause: empty or blank input gives the empty string; a brace- or
bracket-delimited input is tried as JSON, falling back to the literal
string; then the booleans, null, the numeric stage (int when the string
has no dot and no e/E, float otherwise), quote stripping, and the default
of the stripped string itself. -/
def parse_value (value_str : String) : JValue :=
  if value_str = "" ∨ pyStrip value_str = "" then .str ""
  else
    let v := pyStripList value_str.data
    if (v.head? = some '\x7b' ∧ v.getLast? = some '\x7d') ∨
        (v.head? = some '[' ∧ v.getLast? = some ']') then
      match jsonLoads ⟨v⟩ with
      | some j => j
      | none => .str ⟨v⟩
    else if pyLowerList v = trueLit ∨ pyLowerList v = falseLit then
      .bool (pyLowerList v = trueLit)
    else if pyLowerList v = nullLit then .null
    else if ¬('.' ∈ v) ∧ ¬('e' ∈ pyLowerList v) then
      match pyInt? v with
      | some n => .int n
      | none => stripQuotes v
    else
      match pyFloat? v with
      | some j => j
      | none => stripQuotes v

/-- JsonBuilderNode.safe_json_parse (lines 105-126): empty or blank input
gives None; a parse failure gives None (after printing a warning); a
parsed non-dict value is wrapped as a dict with single key "data". -/
def safe_json_parse (json_str : String) : Option (List (String × JValue)) :=
  if json_str = "" ∨ pyStrip json_str = "" then none
  else
    match jsonLoads (pyStrip json_str) with
    | some (.obj es) => some es
    | some v => some [("data", v)]
    | none => none

/-- JsonBuilderNode.merge_json_objects (lines 128-167), value-level view
(the heap-level view with the aliasing of the shallow copy is in
namespace HeapModel below).  merge_obj is always a dict here, as in every
call the node makes, so the isinstance guard of line 143 never fires. -/
def merge_json_objects (base_obj : List (String × JValue))
    (merge_obj : List (String × JValue)) (target_key : String) :
    List (String × JValue) :=
  let result := base_obj
  let tk := pyStrip target_key
  if tk ≠ "" then
    match dictGet result tk with
    | some (.obj nested) => dictSet result tk (.obj (pyUpdate nested merge_obj))
    | some _ => dictSet result tk (.obj merge_obj)
    | none => dictSet result tk (.obj merge_obj)
  else pyUpdate result merge_obj

/-- A value arriving through one of the STRING inputs of the node.  The
host normally passes a str, but the failure contract of build_json is
about a non-string leaking in, so the model keeps that case: such a value
carries its truthiness and the message of the AttributeError that calling
.strip() on it raises. -/
inductive PyStrInput where
  | str (s : String)
  | nonStr (truthy : Bool) (msg : String)

def pyTruthy : PyStrInput → Bool
  | .str s => s ≠ ""
  | .nonStr t _ => t

/-- Calling .strip() on an input: raises AttributeError on a non-str. -/
def pyStripInput : PyStrInput → Except String String
  | .str s => .ok (pyStrip s)
  | .nonStr _ m => .error m

/-- parse_value applied to a raw input (line 194): the first line of
parse_value evaluates `not value_str` first, so a falsy non-string comes
back as the empty string without ever calling .strip(); a truthy
non-string raises at value_str.strip(). -/
def parse_valueInput : PyStrInput → Except String JValue
  | .str s => .ok (parse_value s)
  | .nonStr t m => if t then .error m else .ok (.str "")

/-- The inputs of build_json (the **kwargs of lines 178-182): the five
key/value slots, the merge fragment and target key, the two flags. -/
structure BuildArgs where
  key1 : PyStrInput
  value1 : PyStrInput
  key2 : PyStrInput
  value2 : PyStrInput
  key3 : PyStrInput
  value3 : PyStrInput
  key4 : PyStrInput
  value4 : PyStrInput
  key5 : PyStrInput
  value5 : PyStrInput
  merge_json : PyStrInput
  merge_to_key : PyStrInput
  pretty_format : Bool
  sort_keys : Bool

def slotPairs (a : BuildArgs) : List (PyStrInput × PyStrInput) :=
  [(a.key1, a.value1), (a.key2, a.value2), (a.key3, a.value3),
   (a.key4, a.value4), (a.key5, a.value5)]

/-- One iteration of the slot loop (lines 188-195): a slot whose key is
falsy or strips to the empty string is skipped (its value is then never
parsed), otherwise the parsed value is assigned at the stripped key. -/
def addSlot (obj : List (String × JValue)) (slot : PyStrInput × PyStrInput) :
    Except String (List (String × JValue)) :=
  if pyTruthy slot.1 then do
    let k ← pyStripInput slot.1
    if k ≠ "" then do
      let v ← parse_valueInput slot.2
      pure (dictSet obj k v)
    else pure obj
  else pure obj

/-- The merge step of build_json (lines 198-214): skipped when the
fragment input is falsy or strips to the empty string; a fragment that
safe_json_parse cannot parse only prints a warning and leaves the object
as it was; otherwise merge_json_objects is applied at the stripped
target key. -/
def mergeStep (obj : List (String × JValue)) (mj mk : PyStrInput) :
    Except String (List (String × JValue)) :=
  match mj with
  | .nonStr t m => if t then Except.error m else pure obj
  | .str s =>
    if s ≠ "" ∧ pyStrip s ≠ "" then
      match safe_json_parse s with
      | some mo => do
        let tk ← pyStripInput mk
        pure (merge_json_objects obj mo tk)
      | none => pure obj
    else pure obj

/-- The body of the try block of build_json (lines 184-224): assemble the
five slots, optionally merge the fragment, serialize (the primary string
per the flags, the second string always with indent=2). -/
def innerBuild (a : BuildArgs) : Except String (String × String) := do
  let obj ← (slotPairs a).foldlM addSlot []
  let obj2 ← mergeStep obj a.merge_json a.merge_to_key
  let js := dumps a.pretty_format a.sort_keys (.obj obj2)
  let fj := dumps true a.sort_keys (.obj obj2)
  pure (if a.pretty_format then (js, js) else (js, fj))

/-- The error payload of the except branch (lines 226-234). -/
def errorOutput (msg : String) : String :=
  dumps true false (.obj [("error", .str ("JSON构建错误: " ++ msg)),
    ("success", .bool false)])

/-- JsonBuilderNode.build_json (lines 169-234): the passthrough value is
read before anything can fail, so both branches return it unchanged as
the third component. -/
def build_json {α : Type} (a : BuildArgs) (passthrough : α) : String × String × α :=
  match innerBuild a with
  | .ok (js, fj) => (js, fj, passthrough)
  | .error m => (errorOutput m, errorOutput m, passthrough)

/-- The slot-assembly of lines 188-195 specialized to the str inputs the
host declares for the node (used by the round-trip property). -/
def assembleSlots (slots : List (String × String)) : List (String × JValue) :=
  slots.foldl
    (fun obj kv =>
      if kv.1 ≠ "" ∧ pyStrip kv.1 ≠ "" then dictSet obj (pyStrip kv.1) (parse_value kv.2)
      else obj)
    []

/-- The inputs of the end-to-end scenario: slots name=Alice, age=30,
active=true, everything else empty, compact unsorted output. -/
def c1Args : BuildArgs where
  key1 := .str "name"
  value1 := .str "Alice"
  key2 := .str "age"
  value2 := .str "30"
  key3 := .str "active"
  value3 := .str "true"
  key4 := .str ""
  value4 := .str ""
  key5 := .str ""
  value5 := .str ""
  merge_json := .str ""
  merge_to_key := .str ""
  pretty_format := false
  sort_keys := false

/-- Inputs with a truthy non-string in the first key slot: key1.strip()
raises an AttributeError inside the try block. -/
def c3Args : BuildArgs :=
  { c1Args with key1 := .nonStr true "AttributeError: strip" }

/-! ### The heap-level view of merge_json_objects

Python dicts are mutable objects with identity.  Line 140 of
merge_json_objects takes a SHALLOW copy of base_obj, so the copy shares
every nested dict object with the original; line 156 then calls update on
such a shared nested dict, mutating it in place.  To reason about what
the caller observes on its original object, this namespace re-translates
merge_json_objects over an explicit heap mapping dict addresses to entry
lists whose values are either non-dict values or references to further
dict addresses. -/

namespace HeapModel

/-- A value stored in a dict: a non-dict Python value (string, number,
boolean, None, list, ...), or a nested dict given by its address.  Only
dict-ness matters to merge_json_objects (the isinstance test of
line 154), so non-dict values stay abstract. -/
inductive HVal where
  | scalar (v : JValue)
  | ref (a : Nat)

/-- The heap: finitely many dict objects, by address. -/
abbrev Heap := List (Nat × List (String × HVal))

/-- The entry list of the dict at an address (unused addresses read as
empty; the theorems require the addresses they touch to be allocated). -/
def heapGet : Heap → Nat → List (String × HVal)
  | [], _ => []
  | (a0, es) :: rest, a => if a0 = a then es else heapGet rest a

/-- Overwrite (or allocate) the dict at an address. -/
def heapSet : Heap → Nat → List (String × HVal) → Heap
  | [], a, es => [(a, es)]
  | (a0, es0) :: rest, a, es =>
    if a0 = a then (a0, es) :: rest else (a0, es0) :: heapSet rest a es

def heapAddrs (h : Heap) : List Nat := h.map (fun p => p.1)

/-- An address not used by the heap (allocation of the copy). -/
def freshAddr (h : Heap) : Nat := (heapAddrs h).foldr max 0 + 1

/-- merge_json_objects (lines 128-167) on the heap: result =
base_obj.copy() allocates a fresh dict with the same entry list (nested
references shared); when the target key holds a dict, that shared dict is
update-d in place; when it holds a non-dict or is absent, the result
binds the target key to the merge_obj object itself.  Returns the address
of the result and the heap after the call. -/
def mergeHeap (h : Heap) (baseA mergeA : Nat) (target_key : String) : Nat × Heap :=
  let resA := freshAddr h
  let result := heapGet h baseA
  let h1 := heapSet h resA result
  let tk := pyStrip target_key
  if tk ≠ "" then
    match dictGet result tk with
    | some (.ref a) => (resA, heapSet h1 a (pyUpdate (heapGet h1 a) (heapGet h1 mergeA)))
    | some (.scalar _) => (resA, heapSet h1 resA (dictSet result tk (.ref mergeA)))
    | none => (resA, heapSet h1 resA (dictSet result tk (.ref mergeA)))
  else (resA, heapSet h1 resA (pyUpdate result (heapGet h1 mergeA)))

end HeapModel

/-! ### Auxiliary notions for the round-trip property -/

mutual

/-- Fuel measure for the value parser: parseVal needs more than szV v
fuel to reparse the serialization of v (each nesting level costs one
parseVal and one parseItems or parseMembers call). -/
def szV : JValue → Nat
  | .arr xs => 1 + szL xs
  | .obj es => 1 + szE es
  | _ => 1

def szL : List JValue → Nat
  | [] => 0
  | x :: t => 1 + max (szV x) (szL t)

def szE : List (String × JValue) → Nat
  | [] => 0
  | kv :: t => 1 + max (szV kv.2) (szE t)

end

mutual

/-- Well-formedness of a value of the model: every object has pairwise
distinct keys (Python dicts cannot hold duplicates) and every float is
normalized.  Every value the node builds is well formed. -/
def wfV : JValue → Bool
  | .float m e => decide (e = 0) || (decide (m ≠ 0) && decide (m % 10 ≠ 0))
  | .arr xs => wfL xs
  | .obj es => decide (dictKeys es).Nodup && wfE es
  | _ => true

def wfL : List JValue → Bool
  | [] => true
  | x :: t => wfV x && wfL t

def wfE : List (String × JValue) → Bool
  | [] => true
  | kv :: t => wfV kv.2 && wfE t

end

mutual

/-- Python == on the values of the model: numbers compare by numeric
value across int, float and bool (a Python bool is an int); dicts compare
by key set and pointwise equal values, ignoring order; NaN compares equal
to itself, which is what the observable comparisons of the node report
because the json decoder returns one interned NaN constant and the
CPython container comparisons short-circuit on identity. -/
def pyEqV : JValue → JValue → Bool
  | .str a, .str b => a = b
  | .int a, .int b => a = b
  | .int a, .float m e => m = a * 10 ^ e
  | .int a, .bool b => a = (if b then 1 else 0)
  | .float m e, .int b => m = b * 10 ^ e
  | .float m1 e1, .float m2 e2 => m1 * 10 ^ e2 = m2 * 10 ^ e1
  | .float m e, .bool b => m = (if b then 1 else 0) * 10 ^ e
  | .bool a, .bool b => a = b
  | .bool a, .int b => (if a then 1 else 0) = b
  | .bool a, .float m e => m = (if a then 1 else 0) * 10 ^ e
  | .inf, .inf => true
  | .negInf, .negInf => true
  | .nan, .nan => true
  | .null, .null => true
  | .arr xs, .arr ys => pyEqL xs ys
  | .obj es1, .obj es2 => decide (es1.length = es2.length) && pyEqE es1 es2
  | _, _ => false

def pyEqL : List JValue → List JValue → Bool
  | [], ys => ys.isEmpty
  | x :: t, ys =>
    match ys with
    | [] => false
    | y :: yt => pyEqV x y && pyEqL t yt

def pyEqE : List (String × JValue) → List (String × JValue) → Bool
  | [], _ => true
  | kv :: t, es2 =>
    (match dictGet es2 kv.1 with
     | some w => pyEqV kv.2 w
     | none => false) && pyEqE t es2

end

/-- A continuation on which a number token of the grammar ends: nothing,
or a separator, closing bracket or whitespace (the shapes that follow a
serialized value inside the output of dumps). -/
def restOk : List Char → Prop
  | [] => True
  | c :: _ => c = ',' ∨ c = ']' ∨ c = '\x7d' ∨ jsonWs c = true

namespace HeapModel

/-- A small example heap: dict 0 is \x7b"cfg": dict 1\x7d, dict 1 is
\x7b"x": 1\x7d, dict 2 is \x7b"b": 2\x7d. -/
def exHeap : Heap :=
  [(0, [("cfg", .ref 1)]), (1, [("x", .scalar (.int 1))]), (2, [("b", .scalar (.int 2))])]

end HeapModel

/-! ## Theorems -/

/-! ### Decimal digit strings -/

/-- Any sufficient fuel computes the same digit string. -/
theorem natDigitsF_congr : ∀ f1 f2 n : Nat, n < f1 → n < f2 →
    natDigitsF f1 n = natDigitsF f2 n := by
  intro f1
  induction f1 with
  | zero => omega
  | succ g ih =>
    intro f2 n h1 h2
    cases f2 with
    | zero => omega
    | succ h =>
      show natDigitsF (g + 1) n = natDigitsF (h + 1) n
      simp only [natDigitsF]
      by_cases hn : n < 10
      · rw [if_pos hn, if_pos hn]
      · rw [if_neg hn, if_neg hn, ih h (n / 10) (by omega) (by omega)]

/-- The recursion equation of natDigits. -/
theorem natDigits_eq (n : Nat) :
    natDigits n = if n < 10 then [digitChar n] else natDigits (n / 10) ++ [digitChar (n % 10)] := by
  show natDigitsF (n + 1) n = _
  simp only [natDigitsF]
  by_cases hn : n < 10
  · rw [if_pos hn, if_pos hn]
  · rw [if_neg hn, if_neg hn,
      natDigitsF_congr n (n / 10 + 1) (n / 10) (by omega) (by omega)]
    rfl

theorem digitsVal_append_singleton (l : List Char) (c : Char) :
    digitsVal (l ++ [c]) = digitsVal l * 10 + digitVal c := by
  simp [digitsVal, List.foldl_append]

theorem digitVal_digitChar {n : Nat} (h : n < 10) : digitVal (digitChar n) = n := by
  interval_cases n <;> decide

theorem digitsVal_natDigits (n : Nat) : digitsVal (natDigits n) = n := by
  induction n using Nat.strong_induction_on with
  | _ n ih =>
    by_cases h : n < 10
    · rw [natDigits_eq, if_pos h]
      simp [digitsVal, digitVal_digitChar h]
    · rw [natDigits_eq, if_neg h]
      rw [digitsVal_append_singleton,
        ih (n / 10) (Nat.div_lt_self (by omega) (by omega)),
        digitVal_digitChar (Nat.mod_lt _ (by omega))]
      omega

theorem natDigits_ne_nil (n : Nat) : natDigits n ≠ [] := by
  rw [natDigits_eq]
  split <;> simp

theorem isDigitChar_digitChar {n : Nat} (h : n < 10) : isDigitChar (digitChar n) = true := by
  interval_cases n <;> decide

theorem natDigits_all_digits (n : Nat) : ∀ c ∈ natDigits n, isDigitChar c = true := by
  induction n using Nat.strong_induction_on with
  | _ n ih =>
    by_cases h : n < 10
    · rw [natDigits_eq, if_pos h]
      simpa using isDigitChar_digitChar h
    · rw [natDigits_eq, if_neg h]
      intro c hc
      rcases List.mem_append.1 hc with hc | hc
      · exact ih (n / 10) (Nat.div_lt_self (by omega) (by omega)) c hc
      · simp at hc
        subst hc
        exact isDigitChar_digitChar (Nat.mod_lt _ (by omega))

theorem digitChar_ne_zero {n : Nat} (h0 : 0 < n) (h : n < 10) : digitChar n ≠ '0' := by
  interval_cases n <;> decide

/-- The digit string of a positive number does not start with the zero digit. -/
theorem natDigits_head_ne_zero (n : Nat) (h0 : 0 < n) :
    ∀ c, (natDigits n).head? = some c → c ≠ '0' := by
  induction n using Nat.strong_induction_on with
  | _ n ih =>
    by_cases h : n < 10
    · rw [natDigits_eq, if_pos h]
      intro c hc
      simp at hc
      subst hc
      exact digitChar_ne_zero h0 h
    · rw [natDigits_eq, if_neg h]
      intro c hc
      obtain ⟨d, ds, hds⟩ := List.exists_cons_of_ne_nil (natDigits_ne_nil (n / 10))
      rw [hds] at hc
      simp at hc
      refine ih (n / 10) (Nat.div_lt_self (by omega) (by omega))
        (Nat.div_pos (by omega) (by omega)) c ?_
      rw [hds, hc]
      rfl

/-! ### Claims about parse_value -/

/-- C2: value type inference keeps a quoted numeric literal a string:
parse_value on the quoted literal yields the string 42, while the bare
literals 42 and 42.0 yield the integer 42 and the float 42.0 (the numeric
stage runs before quote-stripping and fails on the quoted input). -/
theorem claim_C2 :
    parse_value "\"42\"" = JValue.str "42" ∧ parse_value "42" = JValue.int 42 ∧
      parse_value "42.0" = JValue.float 42 0 :=
  ⟨rfl, rfl, rfl⟩

/-- C10: a lone double-quote character and a lone single-quote character
each satisfy both the leading- and the trailing-quote test, and slicing
off the first and last character of a one-character string leaves the
empty string. -/
theorem claim_C10 :
    parse_value "\"" = JValue.str "" ∧
      parse_value (String.mk [squoteChar]) = JValue.str "" :=
  ⟨rfl, rfl⟩

/-! ### Claims about the merge pipeline -/

/-- C4: when the merge fragment does not parse as JSON, the merge step
returns the base object unchanged and does not raise (the warning is only
printed); the target-key input is not even touched. -/
theorem claim_C4 (base : List (String × JValue)) (frag : String) (mk : PyStrInput)
    (h : jsonLoads (pyStrip frag) = none) :
    mergeStep base (.str frag) mk = .ok base := by
  by_cases h1 : frag ≠ "" ∧ pyStrip frag ≠ ""
  · have h2 : safe_json_parse frag = none := by
      unfold safe_json_parse
      rw [if_neg (by tauto), h]
    simp only [mergeStep]
    rw [if_pos h1, h2]
    rfl
  · simp only [mergeStep]
    rw [if_neg h1]
    rfl

theorem claim_C4_witness :
    jsonLoads (pyStrip "\x7bbroken") = none ∧
      mergeStep [("a", JValue.int 1)] (.str "\x7bbroken") (.str "k") =
        .ok [("a", JValue.int 1)] :=
  ⟨rfl, claim_C4 [("a", JValue.int 1)] "\x7bbroken" (.str "k") rfl⟩

/-- C5: a fragment that parses to a non-object JSON value is wrapped by
safe_json_parse as an object with the single key data holding the parsed
value. -/
theorem claim_C5 (s : String) (v : JValue) (hp : jsonLoads (pyStrip s) = some v)
    (hno : ∀ es, v ≠ JValue.obj es) :
    safe_json_parse s = some [("data", v)] := by
  have hempty : jsonLoads ("" : String) = none := rfl
  have hne : ¬(s = "" ∨ pyStrip s = "") := by
    rintro (rfl | hh)
    · rw [show pyStrip "" = "" from rfl, hempty] at hp
      cases hp
    · rw [hh, hempty] at hp
      cases hp
  unfold safe_json_parse
  rw [if_neg hne, hp]
  cases v with
  | obj es => exact absurd rfl (hno es)
  | str s => rfl
  | int n => rfl
  | float m e => rfl
  | inf => rfl
  | negInf => rfl
  | nan => rfl
  | bool b => rfl
  | null => rfl
  | arr xs => rfl

theorem claim_C5_witness :
    jsonLoads (pyStrip "[1, 2]") = some (JValue.arr [JValue.int 1, JValue.int 2]) ∧
      safe_json_parse "[1, 2]" =
        some [("data", JValue.arr [JValue.int 1, JValue.int 2])] :=
  ⟨rfl, claim_C5 "[1, 2]" (JValue.arr [JValue.int 1, JValue.int 2]) rfl
    (fun _ h => JValue.noConfusion h)⟩

/-- C6: a non-empty trimmed target key that names an existing non-object
value makes the merge replace that value entirely with the fragment
object (dict assignment at that key). -/
theorem claim_C6 (base mo : List (String × JValue)) (tk : String)
    (h1 : pyStrip tk ≠ "") (v : JValue) (h2 : dictGet base (pyStrip tk) = some v)
    (h3 : ∀ es, v ≠ JValue.obj es) :
    merge_json_objects base mo tk = dictSet base (pyStrip tk) (.obj mo) := by
  unfold merge_json_objects
  rw [if_pos h1, h2]
  cases v with
  | obj es => exact absurd rfl (h3 es)
  | str s => rfl
  | int n => rfl
  | float m e => rfl
  | inf => rfl
  | negInf => rfl
  | nan => rfl
  | bool b => rfl
  | null => rfl
  | arr xs => rfl

theorem claim_C6_witness :
    safe_json_parse "\x7b\"b\":2\x7d" = some [("b", JValue.int 2)] ∧
      merge_json_objects [("a", JValue.int 1)] [("b", JValue.int 2)] "a" =
        [("a", JValue.obj [("b", JValue.int 2)])] :=
  ⟨rfl,
    (claim_C6 [("a", JValue.int 1)] [("b", JValue.int 2)] "a" (by decide)
      (JValue.int 1) rfl (fun _ h => JValue.noConfusion h)).trans rfl⟩

/-! ### Dict and heap lemmas -/

theorem dictGet_dictSet_same {β : Type} (l : List (String × β)) (k : String) (v : β) :
    dictGet (dictSet l k v) k = some v := by
  induction l with
  | nil => simp [dictGet, dictSet]
  | cons kv rest ih =>
    obtain ⟨k0, v0⟩ := kv
    by_cases hk : k0 = k
    · simp [dictSet, dictGet, hk]
    · simp [dictSet, dictGet, hk, ih]

theorem dictGet_dictSet_other {β : Type} (l : List (String × β)) (k k2 : String) (v : β)
    (hne : k ≠ k2) : dictGet (dictSet l k v) k2 = dictGet l k2 := by
  induction l with
  | nil => simp [dictGet, dictSet, hne]
  | cons kv rest ih =>
    obtain ⟨k0, v0⟩ := kv
    by_cases hk : k0 = k
    · subst hk
      simp [dictSet, dictGet, hne]
    · simp [dictSet, dictGet, hk, ih]

theorem pyUpdate_cons {β : Type} (base : List (String × β)) (kv : String × β) (t) :
    pyUpdate base (kv :: t) = pyUpdate (dictSet base kv.1 kv.2) t := rfl

theorem dictGet_pyUpdate_not_mem {β : Type} (base upd : List (String × β)) (k : String)
    (h : k ∉ dictKeys upd) : dictGet (pyUpdate base upd) k = dictGet base k := by
  induction upd generalizing base with
  | nil => rfl
  | cons kv t ih =>
    rw [pyUpdate_cons]
    have hk : kv.1 ≠ k := by
      intro hc
      exact h (by simp [dictKeys, hc])
    rw [ih (dictSet base kv.1 kv.2) (by intro hc; exact h (by simp [dictKeys] at hc ⊢; tauto)),
      dictGet_dictSet_other _ _ _ _ hk]

theorem dictGet_pyUpdate_mem {β : Type} (base upd : List (String × β)) (k : String) (v : β)
    (hnd : (dictKeys upd).Nodup) (hv : dictGet upd k = some v) :
    dictGet (pyUpdate base upd) k = some v := by
  induction upd generalizing base with
  | nil => cases hv
  | cons kv t ih =>
    rw [show dictKeys (kv :: t) = kv.1 :: dictKeys t from rfl, List.nodup_cons] at hnd
    rw [pyUpdate_cons]
    by_cases hk : kv.1 = k
    · have hv0 : kv.2 = v := by
        obtain ⟨k0, v0⟩ := kv
        simp only at hk
        unfold dictGet at hv
        rw [if_pos hk] at hv
        exact Option.some.inj hv
      subst hk
      rw [dictGet_pyUpdate_not_mem _ _ _ hnd.1, ← hv0, dictGet_dictSet_same]
    · have hv1 : dictGet t k = some v := by
        obtain ⟨k0, v0⟩ := kv
        simp only at hk
        unfold dictGet at hv
        rw [if_neg hk] at hv
        exact hv
      exact ih (dictSet base kv.1 kv.2) hnd.2 hv1

namespace HeapModel

theorem heapGet_heapSet_same (h : Heap) (a : Nat) (es : List (String × HVal)) :
    heapGet (heapSet h a es) a = es := by
  induction h with
  | nil => simp [heapGet, heapSet]
  | cons p rest ih =>
    obtain ⟨a0, es0⟩ := p
    by_cases ha : a0 = a
    · simp [heapSet, heapGet, ha]
    · simp [heapSet, heapGet, ha, ih]

theorem heapGet_heapSet_other (h : Heap) (a b : Nat) (es : List (String × HVal))
    (hne : a ≠ b) : heapGet (heapSet h a es) b = heapGet h b := by
  induction h with
  | nil => simp [heapGet, heapSet, hne]
  | cons p rest ih =>
    obtain ⟨a0, es0⟩ := p
    by_cases ha : a0 = a
    · subst ha
      simp [heapSet, heapGet, hne]
    · simp [heapSet, heapGet, ha, ih]

theorem le_foldr_max (l : List Nat) (a : Nat) (h : a ∈ l) : a ≤ l.foldr max 0 := by
  induction l with
  | nil => cases h
  | cons b t ih =>
    rcases List.mem_cons.1 h with rfl | h2
    · exact Nat.le_max_left _ _
    · exact le_trans (ih h2) (Nat.le_max_right _ _)

theorem freshAddr_ne (h : Heap) (a : Nat) (ha : a ∈ heapAddrs h) : freshAddr h ≠ a := by
  intro heq
  have := le_foldr_max (heapAddrs h) a ha
  unfold freshAddr at heq
  omega

end HeapModel

/-! ### Claims about the object identities of the merge -/

/-- C7: the merge allocates a fresh shallow copy and never writes to the
address of the base dict (as long as the base does not hold itself under
the target key), so the key set and the bindings of the original base are
unchanged after the call. -/
theorem claim_C7 (h : HeapModel.Heap) (baseA mergeA : Nat) (tk : String)
    (hbase : baseA ∈ HeapModel.heapAddrs h)
    (hnoself : dictGet (HeapModel.heapGet h baseA) (pyStrip tk) ≠
      some (HeapModel.HVal.ref baseA)) :
    HeapModel.heapGet (HeapModel.mergeHeap h baseA mergeA tk).2 baseA =
      HeapModel.heapGet h baseA := by
  have hA : HeapModel.freshAddr h ≠ baseA := HeapModel.freshAddr_ne h baseA hbase
  simp only [HeapModel.mergeHeap]
  by_cases htk : pyStrip tk ≠ ""
  · rw [if_pos htk]
    cases hget : dictGet (HeapModel.heapGet h baseA) (pyStrip tk) with
    | none =>
      simp only
      rw [HeapModel.heapGet_heapSet_other _ _ _ _ hA,
        HeapModel.heapGet_heapSet_other _ _ _ _ hA]
    | some hv =>
      cases hv with
      | scalar v =>
        simp only
        rw [HeapModel.heapGet_heapSet_other _ _ _ _ hA,
          HeapModel.heapGet_heapSet_other _ _ _ _ hA]
      | ref a =>
        have ha : a ≠ baseA := by
          rintro rfl
          exact hnoself hget
        simp only
        rw [HeapModel.heapGet_heapSet_other _ _ _ _ ha,
          HeapModel.heapGet_heapSet_other _ _ _ _ hA]
  · rw [if_neg htk]
    rw [HeapModel.heapGet_heapSet_other _ _ _ _ hA,
      HeapModel.heapGet_heapSet_other _ _ _ _ hA]

theorem claim_C7_witness :
    HeapModel.heapGet
        (HeapModel.mergeHeap HeapModel.exHeap 0 2 "cfg").2 0 =
      HeapModel.heapGet HeapModel.exHeap 0 :=
  claim_C7 HeapModel.exHeap 0 2 "cfg" (by decide)
    (by
      intro hc
      have hc2 : some (HeapModel.HVal.ref 1) = some (HeapModel.HVal.ref 0) := hc
      injection hc2 with hc3
      injection hc3 with hc4
      exact absurd hc4 (by decide))

/-- C9: when the target key of the base holds a nested dict, the merge
mutates that shared dict in place: after the call the original base still
binds the target key to the same dict object, and that object now equals
its old entries updated with the entries of the fragment dict, so it
contains every key of the fragment. -/
theorem claim_C9 (h : HeapModel.Heap) (baseA mergeA a : Nat) (tk : String)
    (hbase : baseA ∈ HeapModel.heapAddrs h) (hmem : a ∈ HeapModel.heapAddrs h)
    (hmerge : mergeA ∈ HeapModel.heapAddrs h) (hane : a ≠ baseA)
    (htk : pyStrip tk ≠ "")
    (hget : dictGet (HeapModel.heapGet h baseA) (pyStrip tk) =
      some (HeapModel.HVal.ref a))
    (hnd : (dictKeys (HeapModel.heapGet h mergeA)).Nodup) :
    dictGet (HeapModel.heapGet (HeapModel.mergeHeap h baseA mergeA tk).2 baseA)
        (pyStrip tk) = some (HeapModel.HVal.ref a) ∧
      HeapModel.heapGet (HeapModel.mergeHeap h baseA mergeA tk).2 a =
        pyUpdate (HeapModel.heapGet h a) (HeapModel.heapGet h mergeA) ∧
      ∀ k v, dictGet (HeapModel.heapGet h mergeA) k = some v →
        dictGet (HeapModel.heapGet (HeapModel.mergeHeap h baseA mergeA tk).2 a) k =
          some v := by
  have hA : HeapModel.freshAddr h ≠ baseA := HeapModel.freshAddr_ne h baseA hbase
  have hAa : HeapModel.freshAddr h ≠ a := HeapModel.freshAddr_ne h a hmem
  have hAm : HeapModel.freshAddr h ≠ mergeA := HeapModel.freshAddr_ne h mergeA hmerge
  have hres : (HeapModel.mergeHeap h baseA mergeA tk).2 =
      HeapModel.heapSet (HeapModel.heapSet h (HeapModel.freshAddr h) (HeapModel.heapGet h baseA))
        a (pyUpdate (HeapModel.heapGet h a) (HeapModel.heapGet h mergeA)) := by
    simp only [HeapModel.mergeHeap]
    rw [if_pos htk, hget]
    simp only
    rw [HeapModel.heapGet_heapSet_other _ _ _ _ hAa,
      HeapModel.heapGet_heapSet_other _ _ _ _ hAm]
  refine ⟨?_, ?_, ?_⟩
  · rw [hres, HeapModel.heapGet_heapSet_other _ _ _ _ hane,
      HeapModel.heapGet_heapSet_other _ _ _ _ hA, hget]
  · rw [hres, HeapModel.heapGet_heapSet_same]
  · intro k v hkv
    rw [hres, HeapModel.heapGet_heapSet_same]
    exact dictGet_pyUpdate_mem _ _ _ _ hnd hkv

theorem claim_C9_witness :
    dictGet (HeapModel.heapGet (HeapModel.mergeHeap HeapModel.exHeap 0 2 "cfg").2 0)
        (pyStrip "cfg") = some (HeapModel.HVal.ref 1) ∧
      dictGet (HeapModel.heapGet (HeapModel.mergeHeap HeapModel.exHeap 0 2 "cfg").2 1)
        "b" = some (HeapModel.HVal.scalar (JValue.int 2)) := by
  obtain ⟨h1, _h2, h3⟩ := claim_C9 HeapModel.exHeap 0 2 1 "cfg" (by decide) (by decide)
    (by decide) (by decide) (by decide) rfl (by decide)
  exact ⟨h1, h3 "b" (HeapModel.HVal.scalar (JValue.int 2)) rfl⟩

/-! ### Claims about build_json -/

/-- C1 counterexample: with slots name=Alice, age=30, active=true,
compact unsorted output, the primary output string is NOT the claimed
no-space rendering, because json.dumps without a separators argument uses
the defaults ", " and ": ". -/
theorem claim_C1_counterexample :
    (build_json c1Args (0 : Nat)).1 ≠
      "\x7b\"name\":\"Alice\",\"age\":30,\"active\":true\x7d" := by
  decide

/-- C1 as amended: the primary output is the compact rendering with the
json.dumps default separators (a space after each colon and comma), and
the key order is the slot insertion order. -/
theorem claim_C1 {α : Type} (p : α) :
    (build_json c1Args p).1 =
      "\x7b\"name\": \"Alice\", \"age\": 30, \"active\": true\x7d" :=
  rfl

/-- C3: build_json always returns three values with the passthrough value
unchanged as the third, and whenever the try body faults with message m,
both output strings are the indent=2 serialization of the object with
key error holding the prefixed message and key success holding false. -/
theorem claim_C3 {α : Type} (a : BuildArgs) (p : α) :
    (build_json a p).2.2 = p ∧
      ∀ m, innerBuild a = .error m →
        (build_json a p).1 =
            dumps true false
              (.obj [("error", .str ("JSON构建错误: " ++ m)), ("success", .bool false)]) ∧
          (build_json a p).2.1 =
            dumps true false
              (.obj [("error", .str ("JSON构建错误: " ++ m)), ("success", .bool false)]) := by
  refine ⟨?_, ?_⟩
  · unfold build_json
    split <;> rfl
  · intro m hm
    unfold build_json
    split
    · next js heq =>
      rw [heq] at hm
      cases hm
    · next m0 heq =>
      rw [heq] at hm
      injection hm with h
      subst h
      exact ⟨rfl, rfl⟩

theorem claim_C3_witness :
    (build_json c3Args (7 : Nat)).2.2 = 7 ∧
      (build_json c3Args (7 : Nat)).1 =
        dumps true false
          (.obj [("error", .str ("JSON构建错误: " ++ "AttributeError: strip")),
            ("success", .bool false)]) :=
  ⟨(claim_C3 c3Args 7).1, ((claim_C3 c3Args 7).2 "AttributeError: strip" rfl).1⟩

/-! ### Round trip, part 1: tools -/

/-- Induction over the nested value type, with membership hypotheses for
the element lists. -/
theorem JValue.my_ind {P : JValue → Prop}
    (hstr : ∀ s, P (.str s)) (hint : ∀ n, P (.int n))
    (hfloat : ∀ m e, P (.float m e)) (hinf : P .inf) (hninf : P .negInf)
    (hnan : P .nan) (hbool : ∀ b, P (.bool b)) (hnull : P .null)
    (harr : ∀ xs, (∀ x ∈ xs, P x) → P (.arr xs))
    (hobj : ∀ es, (∀ kv ∈ es, P kv.2) → P (.obj es)) :
    ∀ v, P v := by
  intro v
  refine @JValue.rec P (fun xs => ∀ x ∈ xs, P x) (fun es => ∀ kv ∈ es, P kv.2)
    (fun kv => P kv.2) hstr hint hfloat hinf hninf hnan hbool hnull harr hobj
    ?_ ?_ ?_ ?_ ?_ v
  · simp
  · intro h t hh ht x hx
    rcases List.mem_cons.1 hx with rfl | hx2
    · exact hh
    · exact ht x hx2
  · simp
  · intro kv t hkv ht kv2 hkv2
    rcases List.mem_cons.1 hkv2 with rfl | h2
    · exact hkv
    · exact ht kv2 h2
  · intro k v2 hv2
    exact hv2

theorem skipWs_append_ws (ws z : List Char) (h : ∀ c ∈ ws, jsonWs c = true) :
    skipWs (ws ++ z) = skipWs z := by
  induction ws with
  | nil => rfl
  | cons c t ih =>
    rw [List.cons_append]
    unfold skipWs
    rw [List.dropWhile_cons, if_pos (h c (by simp))]
    exact ih (fun c2 hc2 => h c2 (by simp [hc2]))

theorem skipWs_not_ws (c : Char) (cs : List Char) (h : jsonWs c = false) :
    skipWs (c :: cs) = c :: cs := by
  unfold skipWs
  rw [List.dropWhile_cons, h]
  simp

theorem nlIndent_ws (p : Bool) (lv : Nat) : ∀ c ∈ nlIndent p lv, jsonWs c = true := by
  intro c hc
  unfold nlIndent at hc
  cases p with
  | false => simp at hc
  | true =>
    simp [indentChars] at hc
    rcases hc with rfl | h2
    · rfl
    · rw [h2.2]
      rfl

theorem takeWhile_all_append (l rest : List Char) (p : Char → Bool)
    (hl : ∀ c ∈ l, p c = true) (hrest : ∀ c, rest.head? = some c → p c = false) :
    List.takeWhile p (l ++ rest) = l ∧ List.dropWhile p (l ++ rest) = rest := by
  induction l with
  | nil =>
    simp only [List.nil_append]
    cases rest with
    | nil => simp
    | cons c t =>
      have := hrest c rfl
      simp [List.takeWhile_cons, List.dropWhile_cons, this]
  | cons c t ih =>
    have hp := hl c (by simp)
    obtain ⟨ht, hd⟩ := ih (fun c2 hc2 => hl c2 (by simp [hc2]))
    simp [List.takeWhile_cons, List.dropWhile_cons, hp, ht, hd]

theorem span_all_append (l rest : List Char) (p : Char → Bool)
    (hl : ∀ c ∈ l, p c = true) (hrest : ∀ c, rest.head? = some c → p c = false) :
    List.span p (l ++ rest) = (l, rest) := by
  obtain ⟨h1, h2⟩ := takeWhile_all_append l rest p hl hrest
  rw [List.span_eq_take_drop, h1, h2]

theorem foldl_digits (l : List Char) (acc : Nat) :
    l.foldl (fun a c => a * 10 + digitVal c) acc = acc * 10 ^ l.length + digitsVal l := by
  induction l generalizing acc with
  | nil => simp [digitsVal]
  | cons c t ih =>
    show t.foldl _ (acc * 10 + digitVal c) = _
    rw [ih]
    have h2 : digitsVal (c :: t) = digitVal c * 10 ^ t.length + digitsVal t := by
      show t.foldl _ (0 * 10 + digitVal c) = _
      rw [ih]
      ring_nf
    rw [h2]
    simp [List.length_cons]
    ring

theorem digitsVal_append (l1 l2 : List Char) :
    digitsVal (l1 ++ l2) = digitsVal l1 * 10 ^ l2.length + digitsVal l2 := by
  unfold digitsVal
  rw [List.foldl_append]
  exact foldl_digits l2 (digitsVal l1)

theorem digitsVal_replicate_zero (k : Nat) :
    digitsVal (List.replicate k '0') = 0 := by
  induction k with
  | zero => rfl
  | succ n ih =>
    rw [show List.replicate (n + 1) '0' = ['0'] ++ List.replicate n '0' from rfl,
      digitsVal_append, ih]
    simp [digitsVal, digitVal]

theorem hexVal_hexDigitChar (n : Nat) (h : n < 16) : hexVal? (hexDigitChar n) = some n := by
  interval_cases n <;> rfl

/-- A digit character is none of the characters that start another kind
of JSON token. -/
theorem digit_facts (c : Char) (h : isDigitChar c = true) :
    c ≠ '"' ∧ c ≠ '\x7b' ∧ c ≠ '[' ∧ c ≠ '-' ∧ c ≠ 'n' ∧ c ≠ 't' ∧ c ≠ 'f' ∧
      c ≠ 'N' ∧ c ≠ 'I' ∧ c ≠ '.' ∧ c ≠ 'e' ∧ c ≠ 'E' ∧ jsonWs c = false := by
  have hv : 48 ≤ c.toNat ∧ c.toNat ≤ 57 := by
    unfold isDigitChar at h
    simp only [decide_eq_true_eq, Bool.and_eq_true] at h
    exact ⟨h.1, h.2⟩
  refine ⟨?_, ?_, ?_, ?_, ?_, ?_, ?_, ?_, ?_, ?_, ?_, ?_, ?_⟩
  all_goals try (intro hc; rw [hc] at hv; exact absurd hv (by decide))
  unfold jsonWs
  simp only [Bool.or_eq_false_iff, decide_eq_false_iff_not]
  refine ⟨⟨⟨?_, ?_⟩, ?_⟩, ?_⟩ <;> (intro hc; rw [hc] at hv; exact absurd hv (by decide))

/-- The head of a continuation accepted after a number is not a digit,
dot or exponent letter. -/
theorem restOk_facts (rest : List Char) (h : restOk rest) :
    ∀ c, rest.head? = some c →
      isDigitChar c = false ∧ c ≠ '.' ∧ c ≠ 'e' ∧ c ≠ 'E' := by
  intro c hc
  cases rest with
  | nil => cases hc
  | cons c0 t =>
    rw [List.head?_cons] at hc
    injection hc with hc
    subst hc
    unfold restOk at h
    rcases h with rfl | rfl | rfl | hws
    · exact ⟨rfl, by decide, by decide, by decide⟩
    · exact ⟨rfl, by decide, by decide, by decide⟩
    · exact ⟨rfl, by decide, by decide, by decide⟩
    · unfold jsonWs at hws
      simp only [Bool.or_eq_true, decide_eq_true_eq] at hws
      rcases hws with ((rfl | rfl) | rfl) | rfl <;>
        exact ⟨rfl, by decide, by decide, by decide⟩

/-! ### Round trip, part 2: strings -/

/-- Parsing inverts escaping: after the opening quote, the parser reads
the escaped body up to the closing quote and returns exactly the original
characters. -/
theorem parseStrBody_escape (s : List Char) :
    ∀ fuel rest, (escapeList s).length < fuel →
      parseStrBody fuel (escapeList s ++ '"' :: rest) = some (s, rest) := by
  induction s with
  | nil =>
    intro fuel rest hf
    cases fuel with
    | zero => omega
    | succ f => simp [escapeList, parseStrBody]
  | cons c t ih =>
    intro fuel rest hf
    have hsplit : escapeList (c :: t) = escapeChar c ++ escapeList t := rfl
    rw [hsplit] at hf ⊢
    by_cases h1 : c = '"'
    · subst h1
      rw [show escapeChar '"' = ['\\', '"'] from rfl] at hf ⊢
      cases fuel with
      | zero => omega
      | succ f =>
        cases f with
        | zero => simp at hf
        | succ g =>
          have hrec := ih g rest (by simp at hf; omega)
          simp [parseStrBody, parseEsc, hrec]
    · by_cases h2 : c = '\\'
      · subst h2
        rw [show escapeChar '\\' = ['\\', '\\'] from rfl] at hf ⊢
        cases fuel with
        | zero => omega
        | succ f =>
          cases f with
          | zero => simp at hf
          | succ g =>
            have hrec := ih g rest (by simp at hf; omega)
            simp [parseStrBody, parseEsc, hrec]
      · by_cases h3 : c = '\x08'
        · subst h3
          rw [show escapeChar '\x08' = ['\\', 'b'] from rfl] at hf ⊢
          cases fuel with
          | zero => omega
          | succ f =>
            cases f with
            | zero => simp at hf
            | succ g =>
              have hrec := ih g rest (by simp at hf; omega)
              simp [parseStrBody, parseEsc, hrec]
        · by_cases h4 : c = '\x0c'
          · subst h4
            rw [show escapeChar '\x0c' = ['\\', 'f'] from rfl] at hf ⊢
            cases fuel with
            | zero => omega
            | succ f =>
              cases f with
              | zero => simp at hf
              | succ g =>
                have hrec := ih g rest (by simp at hf; omega)
                simp [parseStrBody, parseEsc, hrec]
          · by_cases h5 : c = '\n'
            · subst h5
              rw [show escapeChar '\n' = ['\\', 'n'] from rfl] at hf ⊢
              cases fuel with
              | zero => omega
              | succ f =>
                cases f with
                | zero => simp at hf
                | succ g =>
                  have hrec := ih g rest (by simp at hf; omega)
                  simp [parseStrBody, parseEsc, hrec]
            · by_cases h6 : c = '\r'
              · subst h6
                rw [show escapeChar '\r' = ['\\', 'r'] from rfl] at hf ⊢
                cases fuel with
                | zero => omega
                | succ f =>
                  cases f with
                  | zero => simp at hf
                  | succ g =>
                    have hrec := ih g rest (by simp at hf; omega)
                    simp [parseStrBody, parseEsc, hrec]
              · by_cases h7 : c = '\t'
                · subst h7
                  rw [show escapeChar '\t' = ['\\', 't'] from rfl] at hf ⊢
                  cases fuel with
                  | zero => omega
                  | succ f =>
                    cases f with
                    | zero => simp at hf
                    | succ g =>
                      have hrec := ih g rest (by simp at hf; omega)
                      simp [parseStrBody, parseEsc, hrec]
                · by_cases h8 : c.toNat < 32
                  · have hesc : escapeChar c =
                        ['\\', 'u', '0', '0', hexDigitChar (c.toNat / 16),
                          hexDigitChar (c.toNat % 16)] := by
                      unfold escapeChar
                      rw [if_neg h1, if_neg h2, if_neg h3, if_neg h4, if_neg h5,
                        if_neg h6, if_neg h7, if_pos h8]
                    rw [hesc] at hf ⊢
                    cases fuel with
                    | zero => omega
                    | succ f =>
                      cases f with
                      | zero => simp at hf
                      | succ g =>
                        have hrec := ih g rest (by simp at hf; omega)
                        have e1 : hexVal? (hexDigitChar (c.toNat / 16)) =
                            some (c.toNat / 16) := hexVal_hexDigitChar _ (by omega)
                        have e2 : hexVal? (hexDigitChar (c.toNat % 16)) =
                            some (c.toNat % 16) := hexVal_hexDigitChar _ (by omega)
                        have hv : ((0 * 16 + 0) * 16 + c.toNat / 16) * 16 + c.toNat % 16 =
                            c.toNat := by omega
                        have e0 : hexVal? '0' = some 0 := rfl
                        have hv2 : c.toNat / 16 * 16 + c.toNat % 16 = c.toNat := by
                          omega
                        have hc1 : ¬(55296 ≤ c.toNat ∧ c.toNat < 56320) := by omega
                        have hc2 : ¬(56320 ≤ c.toNat ∧ c.toNat < 57344) := by omega
                        simp [parseStrBody, parseEsc, hex4?, e0, e1, e2, hv2, hc1, hc2,
                          hrec, Char.ofNat_toNat]
                  · have hesc : escapeChar c = [c] := by
                      unfold escapeChar
                      rw [if_neg h1, if_neg h2, if_neg h3, if_neg h4, if_neg h5,
                        if_neg h6, if_neg h7, if_neg h8]
                    rw [hesc] at hf ⊢
                    cases fuel with
                    | zero => omega
                    | succ f =>
                      have hrec := ih f rest (by simp at hf; omega)
                      simp [parseStrBody, h1, h2, h8, hrec]

/-! ### Round trip, part 3: numbers -/

theorem scanFrac_no_dot (cs : List Char) (h : ∀ c, cs.head? = some c → c ≠ '.') :
    scanFrac cs = ([], cs) := by
  unfold scanFrac
  split
  · next d rest => exact absurd rfl (h '.' rfl)
  · rfl

theorem scanExp_no_e (cs : List Char) (h : ∀ c, cs.head? = some c → c ≠ 'e' ∧ c ≠ 'E') :
    scanExp cs = (none, cs) := by
  cases cs with
  | nil => rfl
  | cons c t =>
    obtain ⟨h1, h2⟩ := h c rfl
    simp [scanExp, h1, h2]

theorem parseUIntDigits_general (l rest : List Char) (hne : l ≠ [])
    (hdig : ∀ c ∈ l, isDigitChar c = true)
    (hzero : ∀ c, l.head? = some c → c ≠ '0')
    (hrest : ∀ c, rest.head? = some c → isDigitChar c = false) :
    parseUIntDigits (l ++ rest) = some (l, rest) := by
  obtain ⟨d, ds, rfl⟩ := List.exists_cons_of_ne_nil hne
  have hd : isDigitChar d = true := hdig d (by simp)
  have hd0 : d ≠ '0' := hzero d rfl
  have hspan := span_all_append ds rest isDigitChar (fun c hc => hdig c (by simp [hc])) hrest
  show parseUIntDigits (d :: (ds ++ rest)) = _
  simp only [parseUIntDigits, if_neg hd0, hd, if_pos, hspan]

theorem parseUIntDigits_natDigits (n : Nat) (rest : List Char)
    (hrest : ∀ c, rest.head? = some c → isDigitChar c = false) :
    parseUIntDigits (natDigits n ++ rest) = some (natDigits n, rest) := by
  by_cases hn : n = 0
  · subst hn
    rw [show natDigits 0 = ['0'] from rfl]
    simp [parseUIntDigits]
  · exact parseUIntDigits_general _ _ (natDigits_ne_nil n) (natDigits_all_digits n)
      (natDigits_head_ne_zero n (Nat.pos_of_ne_zero hn)) hrest

theorem scanFrac_digits (fr rest : List Char) (hne : fr ≠ [])
    (hdig : ∀ c ∈ fr, isDigitChar c = true)
    (hrest : ∀ c, rest.head? = some c → isDigitChar c = false) :
    scanFrac ('.' :: (fr ++ rest)) = (fr, rest) := by
  obtain ⟨d, dd, rfl⟩ := List.exists_cons_of_ne_nil hne
  have hd : isDigitChar d = true := hdig d (by simp)
  have hspan := span_all_append dd rest isDigitChar (fun c hc => hdig c (by simp [hc])) hrest
  show scanFrac ('.' :: d :: (dd ++ rest)) = _
  simp only [scanFrac, hd, if_pos, hspan]

theorem normFloat_of_norm (m : Int) (e : Nat) (h : e = 0 ∨ (m ≠ 0 ∧ m % 10 ≠ 0)) :
    normFloat m e = (m, e) := by
  cases e with
  | zero => rfl
  | succ e2 =>
    rcases h with h | ⟨h1, h2⟩
    · cases h
    · unfold normFloat
      rw [if_neg h1, if_neg h2]

theorem normFloat_norm (m : Int) (e : Nat) :
    (normFloat m e).2 = 0 ∨ ((normFloat m e).1 ≠ 0 ∧ (normFloat m e).1 % 10 ≠ 0) := by
  induction e generalizing m with
  | zero => exact Or.inl rfl
  | succ e2 ih =>
    unfold normFloat
    by_cases h1 : m = 0
    · rw [if_pos h1]
      exact Or.inl rfl
    · rw [if_neg h1]
      by_cases h2 : m % 10 = 0
      · rw [if_pos h2]
        exact ih (m / 10)
      · rw [if_neg h2]
        exact Or.inr ⟨h1, h2⟩

theorem normFloat_ten (m1 : Int) : normFloat (10 * m1) 1 = (m1, 0) := by
  unfold normFloat
  by_cases h : 10 * m1 = 0
  · rw [if_pos h]
    have h2 : m1 = 0 := by omega
    rw [h2]
  · rw [if_neg h, if_pos (by omega)]
    have h2 : 10 * m1 / 10 = m1 := by omega
    rw [h2]
    rfl

/-- mkFloatVal at a negative power of ten exponent normalizes. -/
theorem mkFloatVal_negExp (m1 : Int) (k : Nat) (hk : 0 < k) :
    mkFloatVal m1 (0 - (k : Int)) = .float (normFloat m1 k).1 (normFloat m1 k).2 := by
  unfold mkFloatVal
  rw [if_neg (by omega)]
  have h2 : (-(0 - (k : Int))).toNat = k := by omega
  rw [h2]

theorem parseNumTail_int (neg : Bool) (a : Nat) (rest : List Char) (hrest : restOk rest) :
    parseNumTail neg (natDigits a ++ rest) =
      some (.int (if neg then -(a : Int) else (a : Int)), rest) := by
  have h1 : ∀ c, rest.head? = some c → isDigitChar c = false :=
    fun c hc => (restOk_facts rest hrest c hc).1
  have h2 : ∀ c, rest.head? = some c → c ≠ '.' :=
    fun c hc => (restOk_facts rest hrest c hc).2.1
  have h3 : ∀ c, rest.head? = some c → c ≠ 'e' ∧ c ≠ 'E' :=
    fun c hc => ⟨(restOk_facts rest hrest c hc).2.2.1, (restOk_facts rest hrest c hc).2.2.2⟩
  have hu := parseUIntDigits_natDigits a rest h1
  have hf := scanFrac_no_dot rest h2
  have hx := scanExp_no_e rest h3
  simp only [parseNumTail, hu, hf, hx, digitsVal_natDigits]

/-- The generic fraction path of the number parser. -/
theorem parseNumTail_fracPath (neg : Bool) (cs ip fr rest : List Char) (hfr : fr ≠ [])
    (hu : parseUIntDigits cs = some (ip, '.' :: (fr ++ rest)))
    (hdigfr : ∀ c ∈ fr, isDigitChar c = true)
    (hrest : restOk rest) :
    parseNumTail neg cs =
      some (mkFloatVal
        (if neg then -((digitsVal ip * 10 ^ fr.length + digitsVal fr : Nat) : Int)
          else ((digitsVal ip * 10 ^ fr.length + digitsVal fr : Nat) : Int))
        (0 - (fr.length : Int)), rest) := by
  have hds : ∀ c, rest.head? = some c → isDigitChar c = false :=
    fun c hc => (restOk_facts rest hrest c hc).1
  have hee : ∀ c, rest.head? = some c → c ≠ 'e' ∧ c ≠ 'E' :=
    fun c hc => ⟨(restOk_facts rest hrest c hc).2.2.1, (restOk_facts rest hrest c hc).2.2.2⟩
  have hf := scanFrac_digits fr rest hfr hdigfr hds
  have hx := scanExp_no_e rest hee
  obtain ⟨d, dd, rfl⟩ := List.exists_cons_of_ne_nil hfr
  simp only [parseNumTail, hu, hf, hx, Option.getD_none]

/-- The decimal rendering of a / 10 ^ e reparses to the same normalized
float. -/
theorem parseNumTail_float (neg : Bool) (a e : Nat) (rest : List Char)
    (hwf : e = 0 ∨ (a ≠ 0 ∧ a % 10 ≠ 0)) (hrest : restOk rest) :
    parseNumTail neg (dumpFloatAbs a e ++ rest) =
      some (.float (if neg then -(a : Int) else (a : Int)) e, rest) := by
  have hds : ∀ c, rest.head? = some c → isDigitChar c = false :=
    fun c hc => (restOk_facts rest hrest c hc).1
  set ds := natDigits a with hdsdef
  have hdig : ∀ c ∈ ds, isDigitChar c = true := natDigits_all_digits a
  by_cases he : e = 0
  · subst he
    have hshape : dumpFloatAbs a 0 ++ rest = natDigits a ++ ('.' :: (['0'] ++ rest)) := by
      unfold dumpFloatAbs
      simp
    rw [hshape]
    have hu := parseUIntDigits_natDigits a ('.' :: (['0'] ++ rest))
      (by intro c hc; simp at hc; rw [← hc]; rfl)
    rw [parseNumTail_fracPath neg _ _ ['0'] rest (by simp) hu
      (by intro c hc; simp at hc; rw [hc]; rfl) hrest]
    have hm : ((digitsVal (natDigits a) * 10 ^ (['0'] : List Char).length +
        digitsVal ['0'] : Nat) : Int) = 10 * (a : Int) := by
      rw [digitsVal_natDigits, show digitsVal ['0'] = 0 from rfl,
        show (['0'] : List Char).length = 1 from rfl]
      push_cast
      ring
    rw [hm]
    have hlen : ((((['0'] : List Char).length : Nat)) : Int) = ((1 : Nat) : Int) := rfl
    rw [hlen]
    have hmm : (if neg then -(10 * (a : Int)) else 10 * (a : Int)) =
        10 * (if neg then -(a : Int) else (a : Int)) := by
      cases neg <;> simp
    rw [hmm, mkFloatVal_negExp _ 1 (by omega), normFloat_ten]
  · have hane : a ≠ 0 := by
      rcases hwf with h | ⟨h1, _⟩
      · exact absurd h he
      · exact h1
    have hnorm2 : (if neg then -(a : Int) else (a : Int)) ≠ 0 ∧
        (if neg then -(a : Int) else (a : Int)) % 10 ≠ 0 := by
      rcases hwf with h | ⟨h1, h2⟩
      · exact absurd h he
      · constructor
        · cases neg <;> simp <;> omega
        · cases neg <;> simp
          · omega
          · omega
    have hhead : ∀ c, ds.head? = some c → c ≠ '0' :=
      natDigits_head_ne_zero a (Nat.pos_of_ne_zero hane)
    by_cases hlt : e < ds.length
    · have hk : 1 ≤ ds.length - e := by omega
      have hshape : dumpFloatAbs a e ++ rest =
          ds.take (ds.length - e) ++ ('.' :: (ds.drop (ds.length - e) ++ rest)) := by
        unfold dumpFloatAbs
        rw [← hdsdef, if_neg he, if_pos hlt]
        simp
      rw [hshape]
      have htake_ne : ds.take (ds.length - e) ≠ [] := by
        intro hc
        have := congrArg List.length hc
        simp at this
        omega
      have hdrop_ne : ds.drop (ds.length - e) ≠ [] := by
        intro hc
        have := congrArg List.length hc
        simp at this
        omega
      have hheadtake : (ds.take (ds.length - e)).head? = ds.head? := by
        obtain ⟨d2, dd2, hds2⟩ := List.exists_cons_of_ne_nil (natDigits_ne_nil a)
        rw [← hdsdef] at hds2
        cases hvk : ds.length - e with
        | zero => omega
        | succ k =>
          rw [hds2, List.take_succ_cons, List.head?_cons, List.head?_cons]
      have hu := parseUIntDigits_general (ds.take (ds.length - e))
        ('.' :: (ds.drop (ds.length - e) ++ rest)) htake_ne
        (fun c hc => hdig c (List.mem_of_mem_take hc))
        (by
          intro c hc
          rw [hheadtake] at hc
          exact hhead c hc)
        (by intro c hc; simp at hc; rw [← hc]; rfl)
      rw [parseNumTail_fracPath neg _ _ (ds.drop (ds.length - e)) rest hdrop_ne hu
        (fun c hc => hdig c (List.mem_of_mem_drop hc)) hrest]
      have hlendrop : ((ds.drop (ds.length - e)).length) = e := by
        simp
        omega
      have hval : ((digitsVal (ds.take (ds.length - e)) *
          10 ^ (ds.drop (ds.length - e)).length +
          digitsVal (ds.drop (ds.length - e)) : Nat) : Int) = (a : Int) := by
        rw [← digitsVal_append, List.take_append_drop, hdsdef, digitsVal_natDigits]
      rw [hval, hlendrop]
      have hmm : (if neg then -(a : Int) else (a : Int)) =
          (if neg then -(a : Int) else (a : Int)) := rfl
      rw [mkFloatVal_negExp _ e (by omega), normFloat_of_norm _ _ (Or.inr hnorm2)]
    · have hge : ds.length ≤ e := by omega
      have hshape : dumpFloatAbs a e ++ rest =
          '0' :: ('.' :: ((List.replicate (e - ds.length) '0' ++ ds) ++ rest)) := by
        unfold dumpFloatAbs
        rw [← hdsdef, if_neg he, if_neg hlt]
        simp
      rw [hshape]
      have hfrne : List.replicate (e - ds.length) '0' ++ ds ≠ [] := by
        simp [hdsdef, natDigits_ne_nil a]
      have hfrdig : ∀ c ∈ List.replicate (e - ds.length) '0' ++ ds, isDigitChar c = true := by
        intro c hc
        rcases List.mem_append.1 hc with hc | hc
        · rw [(List.mem_replicate.1 hc).2]
          rfl
        · exact hdig c hc
      have hu : parseUIntDigits
          ('0' :: ('.' :: ((List.replicate (e - ds.length) '0' ++ ds) ++ rest))) =
          some (['0'], '.' :: ((List.replicate (e - ds.length) '0' ++ ds) ++ rest)) := by
        simp [parseUIntDigits]
      rw [parseNumTail_fracPath neg _ ['0'] (List.replicate (e - ds.length) '0' ++ ds) rest
        hfrne hu hfrdig hrest]
      have hlenfr : (((List.replicate (e - ds.length) '0' ++ ds).length)) = e := by
        simp
        omega
      have hvalfr : ((digitsVal ['0'] * 10 ^ (List.replicate (e - ds.length) '0' ++ ds).length +
          digitsVal (List.replicate (e - ds.length) '0' ++ ds) : Nat) : Int) = (a : Int) := by
        rw [digitsVal_append, digitsVal_replicate_zero,
          show digitsVal ['0'] = 0 from rfl, hdsdef, digitsVal_natDigits]
        simp
      rw [hvalfr, hlenfr, mkFloatVal_negExp _ e (by omega),
        normFloat_of_norm _ _ (Or.inr hnorm2)]

/-- Parsing inverts the serialization of an int. -/
theorem parseNumber_dumpInt (n : Int) (rest : List Char) (hrest : restOk rest) :
    parseNumber (dumpInt n ++ rest) = some (.int n, rest) := by
  by_cases hn : n < 0
  · rw [show dumpInt n = '-' :: natDigits n.natAbs from by unfold dumpInt; rw [if_pos hn]]
    show parseNumber ('-' :: (natDigits n.natAbs ++ rest)) = _
    simp only [parseNumber]
    rw [if_pos trivial, parseNumTail_int true n.natAbs rest hrest]
    have hx : (if true = true then -((n.natAbs : Nat) : Int) else ((n.natAbs : Nat) : Int)) = n := by
      rw [if_pos rfl]
      omega
    rw [hx]
  · obtain ⟨d, dds, hdds⟩ := List.exists_cons_of_ne_nil (natDigits_ne_nil n.toNat)
    have hd : isDigitChar d = true := natDigits_all_digits n.toNat d (by rw [hdds]; simp)
    have hdm : d ≠ '-' := (digit_facts d hd).2.2.2.1
    rw [show dumpInt n = natDigits n.toNat from by unfold dumpInt; rw [if_neg hn], hdds]
    show parseNumber (d :: (dds ++ rest)) = _
    simp only [parseNumber]
    rw [if_neg hdm]
    rw [show d :: (dds ++ rest) = natDigits n.toNat ++ rest from by rw [hdds]; rfl,
      parseNumTail_int false n.toNat rest hrest]
    have hx : (if false = true then -((n.toNat : Nat) : Int) else ((n.toNat : Nat) : Int)) = n := by
      rw [if_neg (by decide)]
      omega
    rw [hx]

/-- The head character of the unsigned float rendering is a digit. -/
theorem dumpFloatAbs_head (a e : Nat) :
    ∃ d dd, dumpFloatAbs a e = d :: dd ∧ isDigitChar d = true := by
  unfold dumpFloatAbs
  by_cases he : e = 0
  · rw [if_pos he]
    obtain ⟨d, dd, hdd⟩ := List.exists_cons_of_ne_nil (natDigits_ne_nil a)
    refine ⟨d, dd ++ ['.', '0'], by rw [hdd]; rfl, natDigits_all_digits a d (by rw [hdd]; simp)⟩
  · rw [if_neg he]
    by_cases hlt : e < (natDigits a).length
    · rw [if_pos hlt]
      have htake_ne : (natDigits a).take ((natDigits a).length - e) ≠ [] := by
        intro hc
        have := congrArg List.length hc
        simp at this
        omega
      obtain ⟨d, dd, hdd⟩ := List.exists_cons_of_ne_nil htake_ne
      refine ⟨d, dd ++ '.' :: (natDigits a).drop ((natDigits a).length - e), by rw [hdd]; rfl, ?_⟩
      exact natDigits_all_digits a d (List.mem_of_mem_take (by rw [hdd]; simp))
    · rw [if_neg hlt]
      exact ⟨'0', _, rfl, rfl⟩

/-- Parsing inverts the serialization of a normalized float. -/
theorem parseNumber_dumpFloat (m : Int) (e : Nat) (rest : List Char)
    (hwf : e = 0 ∨ (m ≠ 0 ∧ m % 10 ≠ 0)) (hrest : restOk rest) :
    parseNumber (dumpFloat m e ++ rest) = some (.float m e, rest) := by
  by_cases hn : m < 0
  · have hwfa : e = 0 ∨ (m.natAbs ≠ 0 ∧ m.natAbs % 10 ≠ 0) := by
      rcases hwf with h | ⟨h1, h2⟩
      · exact Or.inl h
      · exact Or.inr ⟨by omega, by omega⟩
    rw [show dumpFloat m e = '-' :: dumpFloatAbs m.natAbs e from by
      unfold dumpFloat; rw [if_pos hn]]
    show parseNumber ('-' :: (dumpFloatAbs m.natAbs e ++ rest)) = _
    simp only [parseNumber]
    rw [if_pos trivial, parseNumTail_float true m.natAbs e rest hwfa hrest]
    have hx : (if true = true then -((m.natAbs : Nat) : Int) else ((m.natAbs : Nat) : Int)) = m := by
      rw [if_pos rfl]
      omega
    rw [hx]
  · have hwfa : e = 0 ∨ (m.toNat ≠ 0 ∧ m.toNat % 10 ≠ 0) := by
      rcases hwf with h | ⟨h1, h2⟩
      · exact Or.inl h
      · exact Or.inr ⟨by omega, by omega⟩
    obtain ⟨d, dd, hdd, hd⟩ := dumpFloatAbs_head m.toNat e
    have hdm : d ≠ '-' := (digit_facts d hd).2.2.2.1
    rw [show dumpFloat m e = dumpFloatAbs m.toNat e from by unfold dumpFloat; rw [if_neg hn],
      hdd]
    show parseNumber (d :: (dd ++ rest)) = _
    simp only [parseNumber]
    rw [if_neg hdm]
    rw [show d :: (dd ++ rest) = dumpFloatAbs m.toNat e ++ rest from by rw [hdd]; rfl,
      parseNumTail_float false m.toNat e rest hwfa hrest]
    have hx : (if false = true then -((m.toNat : Nat) : Int) else ((m.toNat : Nat) : Int)) = m := by
      rw [if_neg (by decide)]
      omega
    rw [hx]

/-! ### Round trip, part 4: single values -/

theorem string_eta (s : String) : String.mk s.data = s := rfl

/-- The serialization of a value begins with a character that is neither
whitespace nor a closing bracket. -/
theorem dumpVal_head (p : Bool) (lv : Nat) (v : JValue) :
    ∃ c cs, dumpVal p lv v = c :: cs ∧ jsonWs c = false ∧ c ≠ ']' ∧ c ≠ '\x7d' := by
  cases v with
  | str s => exact ⟨'"', _, rfl, by decide, by decide, by decide⟩
  | int n =>
    unfold dumpVal dumpInt
    by_cases hn : n < 0
    · rw [if_pos hn]
      exact ⟨'-', _, rfl, by decide, by decide, by decide⟩
    · rw [if_neg hn]
      obtain ⟨d, dd, hdd⟩ := List.exists_cons_of_ne_nil (natDigits_ne_nil n.toNat)
      have hd : isDigitChar d = true := natDigits_all_digits n.toNat d (by rw [hdd]; simp)
      have hfacts := digit_facts d hd
      refine ⟨d, dd, by rw [hdd], hfacts.2.2.2.2.2.2.2.2.2.2.2.2, ?_, ?_⟩
      · intro hc; rw [hc] at hd; cases hd
      · intro hc; rw [hc] at hd; cases hd
  | float m e =>
    unfold dumpVal dumpFloat
    by_cases hn : m < 0
    · rw [if_pos hn]
      exact ⟨'-', _, rfl, by decide, by decide, by decide⟩
    · rw [if_neg hn]
      obtain ⟨d, dd, hdd, hd⟩ := dumpFloatAbs_head m.toNat e
      have hfacts := digit_facts d hd
      refine ⟨d, dd, by rw [hdd], hfacts.2.2.2.2.2.2.2.2.2.2.2.2, ?_, ?_⟩
      · intro hc; rw [hc] at hd; cases hd
      · intro hc; rw [hc] at hd; cases hd
  | inf => exact ⟨'I', _, rfl, by decide, by decide, by decide⟩
  | negInf => exact ⟨'-', _, rfl, by decide, by decide, by decide⟩
  | nan => exact ⟨'N', _, rfl, by decide, by decide, by decide⟩
  | bool b =>
    cases b with
    | false => exact ⟨'f', _, rfl, by decide, by decide, by decide⟩
    | true => exact ⟨'t', _, rfl, by decide, by decide, by decide⟩
  | null => exact ⟨'n', _, rfl, by decide, by decide, by decide⟩
  | arr xs =>
    cases xs with
    | nil => exact ⟨'[', _, rfl, by decide, by decide, by decide⟩
    | cons x t => exact ⟨'[', _, rfl, by decide, by decide, by decide⟩
  | obj es =>
    cases es with
    | nil => exact ⟨'\x7b', _, rfl, by decide, by decide, by decide⟩
    | cons kv t => exact ⟨'\x7b', _, rfl, by decide, by decide, by decide⟩

theorem skipWs_dump (p : Bool) (lv : Nat) (v : JValue) (z : List Char) :
    skipWs (dumpVal p lv v ++ z) = dumpVal p lv v ++ z := by
  obtain ⟨c, cs, hd, hws, _, _⟩ := dumpVal_head p lv v
  rw [hd, List.cons_append, skipWs_not_ws c _ hws]

theorem restOk_nlIndent (p : Bool) (lv : Nat) (l : List Char) (h : restOk l) :
    restOk (nlIndent p lv ++ l) := by
  cases p with
  | false => exact h
  | true => exact Or.inr (Or.inr (Or.inr rfl))

theorem restOk_itemSep (p : Bool) (lv : Nat) (l : List Char) :
    restOk (itemSep p lv ++ l) := by
  cases p with
  | false => exact Or.inl rfl
  | true => exact Or.inl rfl

theorem restOk_close (l : List Char) : restOk (']' :: l) := Or.inr (Or.inl rfl)

theorem restOk_closeBrace (l : List Char) : restOk ('\x7d' :: l) := Or.inr (Or.inr (Or.inl rfl))

theorem dropLit_head_ne (l : Char) (ls : List Char) (c : Char) (cs : List Char)
    (h : c ≠ l) : dropLit (l :: ls) (c :: cs) = none := by
  unfold dropLit
  rw [if_neg h]

/-- On an input starting with a digit, the value parser goes straight to
the number token. -/
theorem parseVal_number_digit (fuel : Nat) (c : Char) (t : List Char)
    (hc : isDigitChar c = true) :
    parseVal (fuel + 1) (c :: t) = parseNumber (c :: t) := by
  have hf := digit_facts c hc
  have e1 : dropLit nullLit (c :: t) = none := dropLit_head_ne 'n' _ c t hf.2.2.2.2.1
  have e2 : dropLit trueLit (c :: t) = none := dropLit_head_ne 't' _ c t hf.2.2.2.2.2.1
  have e3 : dropLit falseLit (c :: t) = none := dropLit_head_ne 'f' _ c t hf.2.2.2.2.2.2.1
  have e4 : dropLit nanLit (c :: t) = none := dropLit_head_ne 'N' _ c t hf.2.2.2.2.2.2.2.1
  have e5 : dropLit infLit (c :: t) = none := dropLit_head_ne 'I' _ c t hf.2.2.2.2.2.2.2.2.1
  have e6 : dropLit negInfLit (c :: t) = none := dropLit_head_ne '-' _ c t hf.2.2.2.1
  simp only [parseVal]
  rw [if_neg hf.1, if_neg hf.2.1, if_neg hf.2.2.1, e1, e2, e3, e4, e5, e6]

/-- On a minus sign followed by a digit, the value parser goes straight
to the number token (the -Infinity literal does not match). -/
theorem parseVal_number_neg (fuel : Nat) (d : Char) (t2 : List Char)
    (hd : isDigitChar d = true) :
    parseVal (fuel + 1) ('-' :: d :: t2) = parseNumber ('-' :: d :: t2) := by
  have hf := digit_facts d hd
  have hdI : d ≠ 'I' := hf.2.2.2.2.2.2.2.2.1
  have e1 : dropLit nullLit ('-' :: d :: t2) = none := dropLit_head_ne 'n' _ _ _ (by decide)
  have e2 : dropLit trueLit ('-' :: d :: t2) = none := dropLit_head_ne 't' _ _ _ (by decide)
  have e3 : dropLit falseLit ('-' :: d :: t2) = none := dropLit_head_ne 'f' _ _ _ (by decide)
  have e4 : dropLit nanLit ('-' :: d :: t2) = none := dropLit_head_ne 'N' _ _ _ (by decide)
  have e5 : dropLit infLit ('-' :: d :: t2) = none := dropLit_head_ne 'I' _ _ _ (by decide)
  have e6 : dropLit negInfLit ('-' :: d :: t2) = none := by
    simp [negInfLit, dropLit, hdI]
  simp only [parseVal]
  rw [if_neg (by decide), if_neg (by decide), if_neg (by decide), e1, e2, e3, e4, e5, e6]

/-- Value-level inversion for ints. -/
theorem parseVal_int (fuel : Nat) (n : Int) (rest : List Char) (hrest : restOk rest) :
    parseVal (fuel + 1) (dumpInt n ++ rest) = some (.int n, rest) := by
  by_cases hn : n < 0
  · rw [show dumpInt n = '-' :: natDigits n.natAbs from by unfold dumpInt; rw [if_pos hn]]
    obtain ⟨d, dd, hdd⟩ := List.exists_cons_of_ne_nil (natDigits_ne_nil n.natAbs)
    have hd : isDigitChar d = true := natDigits_all_digits n.natAbs d (by rw [hdd]; simp)
    rw [hdd]
    show parseVal (fuel + 1) ('-' :: d :: (dd ++ rest)) = _
    rw [parseVal_number_neg fuel d _ hd,
      show ('-' :: d :: (dd ++ rest)) = dumpInt n ++ rest from by
        unfold dumpInt
        rw [if_pos hn, hdd]
        rfl]
    exact parseNumber_dumpInt n rest hrest
  · rw [show dumpInt n = natDigits n.toNat from by unfold dumpInt; rw [if_neg hn]]
    obtain ⟨d, dd, hdd⟩ := List.exists_cons_of_ne_nil (natDigits_ne_nil n.toNat)
    have hd : isDigitChar d = true := natDigits_all_digits n.toNat d (by rw [hdd]; simp)
    rw [hdd]
    show parseVal (fuel + 1) (d :: (dd ++ rest)) = _
    rw [parseVal_number_digit fuel d _ hd,
      show (d :: (dd ++ rest)) = dumpInt n ++ rest from by
        unfold dumpInt
        rw [if_neg hn, hdd]
        rfl]
    exact parseNumber_dumpInt n rest hrest

/-- Value-level inversion for normalized floats. -/
theorem parseVal_float (fuel : Nat) (m : Int) (e : Nat) (rest : List Char)
    (hwf : e = 0 ∨ (m ≠ 0 ∧ m % 10 ≠ 0)) (hrest : restOk rest) :
    parseVal (fuel + 1) (dumpFloat m e ++ rest) = some (.float m e, rest) := by
  by_cases hn : m < 0
  · rw [show dumpFloat m e = '-' :: dumpFloatAbs m.natAbs e from by
      unfold dumpFloat; rw [if_pos hn]]
    obtain ⟨d, dd, hdd, hd⟩ := dumpFloatAbs_head m.natAbs e
    rw [hdd]
    show parseVal (fuel + 1) ('-' :: d :: (dd ++ rest)) = _
    rw [parseVal_number_neg fuel d _ hd,
      show ('-' :: d :: (dd ++ rest)) = dumpFloat m e ++ rest from by
        unfold dumpFloat
        rw [if_pos hn, hdd]
        rfl]
    exact parseNumber_dumpFloat m e rest hwf hrest
  · rw [show dumpFloat m e = dumpFloatAbs m.toNat e from by unfold dumpFloat; rw [if_neg hn]]
    obtain ⟨d, dd, hdd, hd⟩ := dumpFloatAbs_head m.toNat e
    rw [hdd]
    show parseVal (fuel + 1) (d :: (dd ++ rest)) = _
    rw [parseVal_number_digit fuel d _ hd,
      show (d :: (dd ++ rest)) = dumpFloat m e ++ rest from by
        unfold dumpFloat
        rw [if_neg hn, hdd]
        rfl]
    exact parseNumber_dumpFloat m e rest hwf hrest

theorem parseVal_litTrue (fuel : Nat) (rest : List Char) :
    parseVal (fuel + 1) (['t', 'r', 'u', 'e'] ++ rest) = some (.bool true, rest) := by
  simp [parseVal, dropLit, nullLit, trueLit]

theorem parseVal_litFalse (fuel : Nat) (rest : List Char) :
    parseVal (fuel + 1) (['f', 'a', 'l', 's', 'e'] ++ rest) = some (.bool false, rest) := by
  simp [parseVal, dropLit, nullLit, trueLit, falseLit]

theorem parseVal_litNull (fuel : Nat) (rest : List Char) :
    parseVal (fuel + 1) (['n', 'u', 'l', 'l'] ++ rest) = some (.null, rest) := by
  simp [parseVal, dropLit, nullLit]

theorem parseVal_litNan (fuel : Nat) (rest : List Char) :
    parseVal (fuel + 1) (['N', 'a', 'N'] ++ rest) = some (.nan, rest) := by
  simp [parseVal, dropLit, nullLit, trueLit, falseLit, nanLit]

theorem parseVal_litInf (fuel : Nat) (rest : List Char) :
    parseVal (fuel + 1) (['I', 'n', 'f', 'i', 'n', 'i', 't', 'y'] ++ rest) =
      some (.inf, rest) := by
  simp [parseVal, dropLit, nullLit, trueLit, falseLit, nanLit, infLit]

theorem parseVal_litNegInf (fuel : Nat) (rest : List Char) :
    parseVal (fuel + 1) (['-', 'I', 'n', 'f', 'i', 'n', 'i', 't', 'y'] ++ rest) =
      some (.negInf, rest) := by
  simp [parseVal, dropLit, nullLit, trueLit, falseLit, nanLit, infLit, negInfLit]

/-- Value-level inversion for strings. -/
theorem parseVal_str (fuel : Nat) (s : String) (rest : List Char) :
    parseVal (fuel + 1) (dumpStr s ++ rest) = some (.str s, rest) := by
  have hshape : dumpStr s ++ rest = '"' :: (escapeList s.data ++ ('"' :: rest)) := by
    unfold dumpStr
    simp
  rw [hshape]
  simp only [parseVal]
  rw [if_pos trivial,
    parseStrBody_escape s.data _ rest (by simp; omega)]
  simp [string_eta]

/-! ### Round trip, part 5: containers -/

theorem dictSet_append_of_not_mem {β : Type} (l : List (String × β)) (k : String) (v : β)
    (h : k ∉ dictKeys l) : dictSet l k v = l ++ [(k, v)] := by
  induction l with
  | nil => rfl
  | cons kv t ih =>
    have hk : kv.1 ≠ k := by
      intro hc
      exact h (by simp [dictKeys, hc])
    obtain ⟨k0, v0⟩ := kv
    simp only at hk
    unfold dictSet
    rw [if_neg hk, ih (by intro hc; exact h (by simp [dictKeys] at hc ⊢; tauto))]
    rfl

theorem foldl_dictSet_append {β : Type} (es : List (String × β)) :
    ∀ acc : List (String × β), (∀ kv ∈ es, kv.1 ∉ dictKeys acc) → (dictKeys es).Nodup →
      es.foldl (fun a kv => dictSet a kv.1 kv.2) acc = acc ++ es := by
  induction es with
  | nil => intro acc _ _; simp
  | cons kv t ih =>
    intro acc h hnd
    rw [show dictKeys (kv :: t) = kv.1 :: dictKeys t from rfl, List.nodup_cons] at hnd
    show t.foldl _ (dictSet acc kv.1 kv.2) = acc ++ kv :: t
    rw [dictSet_append_of_not_mem acc kv.1 kv.2 (h kv (by simp))]
    rw [ih (acc ++ [(kv.1, kv.2)]) ?_ hnd.2]
    · simp
    · intro kv2 hkv2
      rw [show dictKeys (acc ++ [(kv.1, kv.2)]) = dictKeys acc ++ [kv.1] from by
        simp [dictKeys]]
      intro hc
      rcases List.mem_append.1 hc with hc | hc
      · exact h kv2 (by simp [hkv2]) hc
      · simp at hc
        exact hnd.1 (by rw [← hc]; exact List.mem_map_of_mem _ hkv2)

/-- Building a dict from a duplicate-free pair list keeps the list. -/
theorem dictOfPairs_self {β : Type} (es : List (String × β)) (hnd : (dictKeys es).Nodup) :
    dictOfPairs es = es := by
  unfold dictOfPairs
  rw [foldl_dictSet_append es [] (by intro kv _; simp [dictKeys]) hnd]
  rfl

theorem itemSep_eq (p : Bool) (lv : Nat) :
    ∃ tl, itemSep p lv = ',' :: tl ∧ ∀ c ∈ tl, jsonWs c = true := by
  cases p with
  | false => exact ⟨[' '], rfl, by decide⟩
  | true =>
    refine ⟨'\n' :: indentChars lv, rfl, ?_⟩
    intro c hc
    rcases List.mem_cons.1 hc with rfl | hc
    · rfl
    · rw [(List.mem_replicate.1 hc).2]
      rfl

theorem skipWs_entry (k : String) (vtext z : List Char) :
    skipWs (entryChars k vtext ++ z) = entryChars k vtext ++ z := by
  unfold entryChars dumpStr
  rw [show ('"' :: (escapeList k.data ++ ['"']) ++ ':' :: ' ' :: vtext) ++ z =
    '"' :: ((escapeList k.data ++ ['"']) ++ ':' :: ' ' :: vtext ++ z) from by simp]
  exact skipWs_not_ws _ _ (by decide)

theorem wfV_float_elim (m : Int) (e : Nat) (h : wfV (.float m e) = true) :
    e = 0 ∨ (m ≠ 0 ∧ m % 10 ≠ 0) := by
  unfold wfV at h
  simp only [Bool.or_eq_true, Bool.and_eq_true, decide_eq_true_eq] at h
  exact h

theorem wfV_obj_elim (es : List (String × JValue)) (h : wfV (.obj es) = true) :
    (dictKeys es).Nodup ∧ wfE es = true := by
  unfold wfV at h
  simp only [Bool.and_eq_true, decide_eq_true_eq] at h
  exact h

theorem wfL_cons_elim (x : JValue) (t : List JValue) (h : wfL (x :: t) = true) :
    wfV x = true ∧ wfL t = true := by
  unfold wfL at h
  simp only [Bool.and_eq_true] at h
  exact h

theorem wfE_cons_elim (kv : String × JValue) (t : List (String × JValue))
    (h : wfE (kv :: t) = true) : wfV kv.2 = true ∧ wfE t = true := by
  unfold wfE at h
  simp only [Bool.and_eq_true] at h
  exact h

/-! ### Round trip, part 6: the main induction -/

/-- Parsing inverts serialization: simultaneously for one value, for the
item list of an array and for the member list of an object, by induction
on the parser fuel. -/
theorem parse_dump_all : ∀ fuel : Nat,
    (∀ (p : Bool) (lv : Nat) (v : JValue) (rest : List Char),
        wfV v = true → szV v < fuel → restOk rest →
        parseVal fuel (dumpVal p lv v ++ rest) = some (v, rest)) ∧
    (∀ (ws : List Char) (p : Bool) (lv lv0 : Nat) (x : JValue) (t : List JValue)
        (rest0 : List Char),
        (∀ c ∈ ws, jsonWs c = true) → wfV x = true → wfL t = true →
        szL (x :: t) < fuel → restOk rest0 →
        parseItems fuel
          (ws ++ (dumpVal p lv x ++
            (dumpElemsRest p lv t ++ (nlIndent p lv0 ++ (']' :: rest0))))) =
          some (x :: t, rest0)) ∧
    (∀ (p : Bool) (lv lv0 : Nat) (k : String) (vv : JValue) (t : List (String × JValue))
        (rest0 : List Char),
        wfV vv = true → wfE t = true → szE ((k, vv) :: t) < fuel → restOk rest0 →
        parseMembers fuel
          (entryChars k (dumpVal p lv vv) ++
            (dumpEntriesRest p lv t ++ (nlIndent p lv0 ++ ('\x7d' :: rest0)))) =
          some ((k, vv) :: t, rest0)) := by
  intro fuel
  induction fuel using Nat.strong_induction_on with
  | _ fuel ih =>
    refine ⟨?_, ?_, ?_⟩
    · intro p lv v rest hwf hsz hrest
      cases fuel with
      | zero => omega
      | succ f =>
        cases v with
        | str s => exact parseVal_str f s rest
        | int n => exact parseVal_int f n rest hrest
        | float m e => exact parseVal_float f m e rest (wfV_float_elim m e hwf) hrest
        | inf => exact parseVal_litInf f rest
        | negInf => exact parseVal_litNegInf f rest
        | nan => exact parseVal_litNan f rest
        | null => exact parseVal_litNull f rest
        | bool b =>
          cases b with
          | true => exact parseVal_litTrue f rest
          | false => exact parseVal_litFalse f rest
        | arr xs =>
          cases xs with
          | nil =>
            show parseVal (f + 1) ('[' :: ']' :: rest) = some (.arr [], rest)
            have hsk : skipWs (']' :: rest) = ']' :: rest := skipWs_not_ws ']' rest (by decide)
            simp +decide only [parseVal, hsk, if_true, if_false, List.head?_cons,
              List.tail_cons]
          | cons x t =>
            have hx := wfL_cons_elim x t hwf
            have hsz2 : szL (x :: t) < f := by
              have h0 : szV (.arr (x :: t)) = 1 + szL (x :: t) := rfl
              omega
            have hshape : dumpVal p lv (.arr (x :: t)) ++ rest =
                '[' :: (nlIndent p (lv + 1) ++ (dumpVal p (lv + 1) x ++
                  (dumpElemsRest p (lv + 1) t ++ (nlIndent p lv ++ (']' :: rest))))) := by
              show ('[' :: (nlIndent p (lv + 1) ++ dumpVal p (lv + 1) x ++
                dumpElemsRest p (lv + 1) t ++ nlIndent p lv ++ [']'])) ++ rest = _
              simp
            rw [hshape]
            simp only [parseVal]
            rw [if_neg (by decide), if_neg (by decide)]
            have hskip : skipWs (nlIndent p (lv + 1) ++ (dumpVal p (lv + 1) x ++
                (dumpElemsRest p (lv + 1) t ++ (nlIndent p lv ++ (']' :: rest))))) =
                dumpVal p (lv + 1) x ++ (dumpElemsRest p (lv + 1) t ++
                  (nlIndent p lv ++ (']' :: rest))) := by
              rw [skipWs_append_ws _ _ (nlIndent_ws p (lv + 1)), skipWs_dump]
            rw [hskip]
            obtain ⟨c0, cs0, hd0, _hw0, hne1, _hne2⟩ := dumpVal_head p (lv + 1) x
            have hh : (dumpVal p (lv + 1) x ++ (dumpElemsRest p (lv + 1) t ++
                (nlIndent p lv ++ (']' :: rest)))).head? ≠ some ']' := by
              rw [hd0]
              simp [hne1]
            rw [if_pos (by trivial), if_neg hh]
            have hitems := ((ih f (by omega)).2.1) [] p (lv + 1) lv x t rest
              (by simp) hx.1 hx.2 hsz2 hrest
            rw [List.nil_append] at hitems
            rw [hitems]
            rfl
        | obj es =>
          cases es with
          | nil =>
            show parseVal (f + 1) ('\x7b' :: '\x7d' :: rest) = some (.obj [], rest)
            have hsk : skipWs ('\x7d' :: rest) = '\x7d' :: rest :=
              skipWs_not_ws '\x7d' rest (by decide)
            simp +decide only [parseVal, hsk, if_true, if_false, List.head?_cons,
              List.tail_cons]
          | cons kv t =>
            have hwe := wfV_obj_elim _ hwf
            have hx := wfE_cons_elim kv t hwe.2
            have hsz2 : szE (kv :: t) < f := by
              have h0 : szV (.obj (kv :: t)) = 1 + szE (kv :: t) := rfl
              omega
            have hshape : dumpVal p lv (.obj (kv :: t)) ++ rest =
                '\x7b' :: (nlIndent p (lv + 1) ++ (entryChars kv.1 (dumpVal p (lv + 1) kv.2) ++
                  (dumpEntriesRest p (lv + 1) t ++ (nlIndent p lv ++ ('\x7d' :: rest))))) := by
              show ('\x7b' :: (nlIndent p (lv + 1) ++ entryChars kv.1 (dumpVal p (lv + 1) kv.2) ++
                dumpEntriesRest p (lv + 1) t ++ nlIndent p lv ++ ['\x7d'])) ++ rest = _
              simp
            rw [hshape]
            simp only [parseVal]
            rw [if_neg (by decide)]
            have hskip : skipWs (nlIndent p (lv + 1) ++ (entryChars kv.1 (dumpVal p (lv + 1) kv.2) ++
                (dumpEntriesRest p (lv + 1) t ++ (nlIndent p lv ++ ('\x7d' :: rest))))) =
                entryChars kv.1 (dumpVal p (lv + 1) kv.2) ++
                  (dumpEntriesRest p (lv + 1) t ++ (nlIndent p lv ++ ('\x7d' :: rest))) := by
              rw [skipWs_append_ws _ _ (nlIndent_ws p (lv + 1)), skipWs_entry]
            rw [hskip]
            have hh : (entryChars kv.1 (dumpVal p (lv + 1) kv.2) ++
                (dumpEntriesRest p (lv + 1) t ++ (nlIndent p lv ++ ('\x7d' :: rest)))).head? ≠
                some '\x7d' := by
              unfold entryChars dumpStr
              simp
            rw [if_pos (by trivial), if_neg hh]
            have hmembers := ((ih f (by omega)).2.2) p (lv + 1) lv kv.1 kv.2 t rest
              hx.1 hx.2 (by
                have h0 : szE ((kv.1, kv.2) :: t) = szE (kv :: t) := rfl
                omega) hrest
            rw [hmembers, show ((kv.1, kv.2) :: t) = kv :: t from rfl]
            simp only [Option.map_some']
            rw [dictOfPairs_self (kv :: t) hwe.1]
    · intro ws p lv lv0 x t rest0 hws hwx hwt hsz hrest
      cases fuel with
      | zero =>
        have h0 : szL (x :: t) = 1 + max (szV x) (szL t) := rfl
        omega
      | succ f =>
        have hszL : 1 + max (szV x) (szL t) < f + 1 := by
          have h0 : szL (x :: t) = 1 + max (szV x) (szL t) := rfl
          omega
        have hszx : szV x < f := by
          have := Nat.le_max_left (szV x) (szL t)
          omega
        have hrestZ : restOk (dumpElemsRest p lv t ++ (nlIndent p lv0 ++ (']' :: rest0))) := by
          cases t with
          | nil =>
            show restOk ([] ++ (nlIndent p lv0 ++ (']' :: rest0)))
            rw [List.nil_append]
            exact restOk_nlIndent _ _ _ (restOk_close _)
          | cons y t2 =>
            obtain ⟨tl, htl, _⟩ := itemSep_eq p lv
            rw [show dumpElemsRest p lv (y :: t2) =
              itemSep p lv ++ dumpVal p lv y ++ dumpElemsRest p lv t2 from rfl, htl]
            simp only [List.cons_append, List.append_assoc]
            exact Or.inl rfl
        have hval := (ih f (by omega)).1 p lv x
          (dumpElemsRest p lv t ++ (nlIndent p lv0 ++ (']' :: rest0))) hwx hszx hrestZ
        simp only [parseItems]
        rw [skipWs_append_ws _ _ hws, skipWs_dump, hval]
        cases t with
        | nil =>
          have hskip2 : skipWs (dumpElemsRest p lv ([] : List JValue) ++
              (nlIndent p lv0 ++ (']' :: rest0))) = ']' :: rest0 := by
            show skipWs ([] ++ (nlIndent p lv0 ++ (']' :: rest0))) = _
            rw [List.nil_append, skipWs_append_ws _ _ (nlIndent_ws p lv0),
              skipWs_not_ws ']' rest0 (by decide)]
          simp +decide only [hskip2, if_true, if_false]
        | cons y t2 =>
          obtain ⟨tl, htl, htlws⟩ := itemSep_eq p lv
          have hy := wfL_cons_elim y t2 hwt
          have hszy : szL (y :: t2) < f := by
            have := Nat.le_max_right (szV x) (szL (y :: t2))
            omega
          have hrec := (ih f (by omega)).2.1 tl p lv lv0 y t2 rest0 htlws hy.1 hy.2 hszy hrest
          have hskipZ : skipWs (dumpElemsRest p lv (y :: t2) ++
              (nlIndent p lv0 ++ (']' :: rest0))) =
              ',' :: (tl ++ (dumpVal p lv y ++ (dumpElemsRest p lv t2 ++
                (nlIndent p lv0 ++ (']' :: rest0))))) := by
            rw [show dumpElemsRest p lv (y :: t2) =
              itemSep p lv ++ dumpVal p lv y ++ dumpElemsRest p lv t2 from rfl, htl]
            rw [show (',' :: tl ++ dumpVal p lv y ++ dumpElemsRest p lv t2) ++
              (nlIndent p lv0 ++ (']' :: rest0)) =
              ',' :: (tl ++ (dumpVal p lv y ++ (dumpElemsRest p lv t2 ++
                (nlIndent p lv0 ++ (']' :: rest0))))) from by simp]
            exact skipWs_not_ws ',' _ (by decide)
          simp +decide only [hskipZ, hrec, Option.map_some', if_true, if_false]
    · intro p lv lv0 k vv t rest0 hwv hwt hsz hrest
      cases fuel with
      | zero =>
        have h0 : szE ((k, vv) :: t) = 1 + max (szV vv) (szE t) := rfl
        omega
      | succ f =>
        have hszE : 1 + max (szV vv) (szE t) < f + 1 := by
          have h0 : szE ((k, vv) :: t) = 1 + max (szV vv) (szE t) := rfl
          omega
        have hszv : szV vv < f := by
          have := Nat.le_max_left (szV vv) (szE t)
          omega
        have hrestR : restOk (dumpEntriesRest p lv t ++ (nlIndent p lv0 ++ ('\x7d' :: rest0))) := by
          cases t with
          | nil =>
            show restOk ([] ++ (nlIndent p lv0 ++ ('\x7d' :: rest0)))
            rw [List.nil_append]
            exact restOk_nlIndent _ _ _ (restOk_closeBrace _)
          | cons kv2 t2 =>
            obtain ⟨tl, htl, _⟩ := itemSep_eq p lv
            rw [show dumpEntriesRest p lv (kv2 :: t2) =
              itemSep p lv ++ entryChars kv2.1 (dumpVal p lv kv2.2) ++
                dumpEntriesRest p lv t2 from rfl, htl]
            simp only [List.cons_append, List.append_assoc]
            exact Or.inl rfl
        have hshape : entryChars k (dumpVal p lv vv) ++
            (dumpEntriesRest p lv t ++ (nlIndent p lv0 ++ ('\x7d' :: rest0))) =
            '"' :: (escapeList k.data ++ ('"' :: (':' :: (' ' :: (dumpVal p lv vv ++
              (dumpEntriesRest p lv t ++ (nlIndent p lv0 ++ ('\x7d' :: rest0)))))))) := by
          unfold entryChars dumpStr
          simp
        have hstr := parseStrBody_escape k.data
          ((escapeList k.data ++ ('"' :: (':' :: (' ' :: (dumpVal p lv vv ++
            (dumpEntriesRest p lv t ++ (nlIndent p lv0 ++ ('\x7d' :: rest0)))))))).length + 1)
          (':' :: (' ' :: (dumpVal p lv vv ++
            (dumpEntriesRest p lv t ++ (nlIndent p lv0 ++ ('\x7d' :: rest0))))))
          (by simp only [List.length_append]; omega)
        have h1 : skipWs (':' :: (' ' :: (dumpVal p lv vv ++
            (dumpEntriesRest p lv t ++ (nlIndent p lv0 ++ ('\x7d' :: rest0)))))) =
            ':' :: (' ' :: (dumpVal p lv vv ++
              (dumpEntriesRest p lv t ++ (nlIndent p lv0 ++ ('\x7d' :: rest0))))) :=
          skipWs_not_ws ':' _ (by decide)
        have h2 : skipWs (' ' :: (dumpVal p lv vv ++
            (dumpEntriesRest p lv t ++ (nlIndent p lv0 ++ ('\x7d' :: rest0))))) =
            dumpVal p lv vv ++
              (dumpEntriesRest p lv t ++ (nlIndent p lv0 ++ ('\x7d' :: rest0))) := by
          show List.dropWhile jsonWs (' ' :: _) = _
          rw [List.dropWhile_cons]
          rw [show jsonWs ' ' = true from rfl, if_pos rfl]
          exact skipWs_dump p lv vv _
        have hval := (ih f (by omega)).1 p lv vv
          (dumpEntriesRest p lv t ++ (nlIndent p lv0 ++ ('\x7d' :: rest0))) hwv hszv hrestR
        rw [hshape]
        simp only [parseMembers]
        cases t with
        | nil =>
          have h3 : skipWs (dumpEntriesRest p lv ([] : List (String × JValue)) ++
              (nlIndent p lv0 ++ ('\x7d' :: rest0))) = '\x7d' :: rest0 := by
            show skipWs ([] ++ (nlIndent p lv0 ++ ('\x7d' :: rest0))) = _
            rw [List.nil_append, skipWs_append_ws _ _ (nlIndent_ws p lv0),
              skipWs_not_ws '\x7d' rest0 (by decide)]
          simp +decide only [hstr, h1, h2, hval, h3, if_true, if_false, string_eta]
        | cons kv2 t2 =>
          obtain ⟨tl, htl, htlws⟩ := itemSep_eq p lv
          have hkv2 := wfE_cons_elim kv2 t2 hwt
          have hszk : szE ((kv2.1, kv2.2) :: t2) < f := by
            have h0 : szE ((kv2.1, kv2.2) :: t2) = szE (kv2 :: t2) := rfl
            have := Nat.le_max_right (szV vv) (szE (kv2 :: t2))
            omega
          have hrec := (ih f (by omega)).2.2 p lv lv0 kv2.1 kv2.2 t2 rest0
            hkv2.1 hkv2.2 hszk hrest
          have hskipR : skipWs (dumpEntriesRest p lv (kv2 :: t2) ++
              (nlIndent p lv0 ++ ('\x7d' :: rest0))) =
              ',' :: (tl ++ (entryChars kv2.1 (dumpVal p lv kv2.2) ++
                (dumpEntriesRest p lv t2 ++ (nlIndent p lv0 ++ ('\x7d' :: rest0))))) := by
            rw [show dumpEntriesRest p lv (kv2 :: t2) =
              itemSep p lv ++ entryChars kv2.1 (dumpVal p lv kv2.2) ++
                dumpEntriesRest p lv t2 from rfl, htl]
            rw [show (',' :: tl ++ entryChars kv2.1 (dumpVal p lv kv2.2) ++
              dumpEntriesRest p lv t2) ++ (nlIndent p lv0 ++ ('\x7d' :: rest0)) =
              ',' :: (tl ++ (entryChars kv2.1 (dumpVal p lv kv2.2) ++
                (dumpEntriesRest p lv t2 ++ (nlIndent p lv0 ++ ('\x7d' :: rest0))))) from by simp]
            exact skipWs_not_ws ',' _ (by decide)
          have h4 : skipWs (tl ++ (entryChars kv2.1 (dumpVal p lv kv2.2) ++
              (dumpEntriesRest p lv t2 ++ (nlIndent p lv0 ++ ('\x7d' :: rest0))))) =
              entryChars kv2.1 (dumpVal p lv kv2.2) ++
                (dumpEntriesRest p lv t2 ++ (nlIndent p lv0 ++ ('\x7d' :: rest0))) := by
            rw [skipWs_append_ws _ _ htlws, skipWs_entry]
          simp +decide only [hstr, h1, h2, hval, hskipR, h4, hrec, Option.map_some',
            if_true, if_false, string_eta, Prod.mk.eta]

/-! ### Round trip, part 7: the size of a value bounds its serialized length -/

theorem itemSep_length_pos (p : Bool) (lv : Nat) : 1 ≤ (itemSep p lv).length := by
  obtain ⟨tl, htl, _⟩ := itemSep_eq p lv
  rw [htl]
  simp

theorem entryChars_length (k : String) (vtext : List Char) :
    (entryChars k vtext).length = (dumpStr k).length + 2 + vtext.length := by
  rw [show entryChars k vtext = dumpStr k ++ ':' :: ' ' :: vtext from rfl,
    List.length_append]
  simp only [List.length_cons]
  omega

theorem szL_le_elemsRest (p : Bool) (lv : Nat) :
    ∀ t : List JValue, (∀ x ∈ t, szV x ≤ (dumpVal p lv x).length) →
      szL t ≤ (dumpElemsRest p lv t).length := by
  intro t
  induction t with
  | nil => intro _; simp [szL, dumpElemsRest]
  | cons x t2 ih =>
    intro h
    have h1 := h x (by simp)
    have h2 := ih (fun y hy => h y (by simp [hy]))
    have h3 := itemSep_length_pos p lv
    have h4 : szL (x :: t2) = 1 + max (szV x) (szL t2) := rfl
    have h5 : (dumpElemsRest p lv (x :: t2)).length =
        (itemSep p lv).length + (dumpVal p lv x).length + (dumpElemsRest p lv t2).length := by
      rw [show dumpElemsRest p lv (x :: t2) =
        itemSep p lv ++ dumpVal p lv x ++ dumpElemsRest p lv t2 from rfl,
        List.length_append, List.length_append]
    omega

theorem szE_le_entriesRest (p : Bool) (lv : Nat) :
    ∀ t : List (String × JValue), (∀ kv ∈ t, szV kv.2 ≤ (dumpVal p lv kv.2).length) →
      szE t ≤ (dumpEntriesRest p lv t).length := by
  intro t
  induction t with
  | nil => intro _; simp [szE, dumpEntriesRest]
  | cons kv t2 ih =>
    intro h
    have h1 := h kv (by simp)
    have h2 := ih (fun y hy => h y (by simp [hy]))
    have h3 := itemSep_length_pos p lv
    have h4 : szE (kv :: t2) = 1 + max (szV kv.2) (szE t2) := rfl
    have hec := entryChars_length kv.1 (dumpVal p lv kv.2)
    have h5 : (dumpEntriesRest p lv (kv :: t2)).length =
        (itemSep p lv).length + (entryChars kv.1 (dumpVal p lv kv.2)).length +
          (dumpEntriesRest p lv t2).length := by
      rw [show dumpEntriesRest p lv (kv :: t2) =
        itemSep p lv ++ entryChars kv.1 (dumpVal p lv kv.2) ++ dumpEntriesRest p lv t2 from rfl,
        List.length_append, List.length_append]
    omega

theorem szV_le_dump : ∀ v : JValue, ∀ (p : Bool) (lv : Nat),
    szV v ≤ (dumpVal p lv v).length := by
  intro v
  induction v using JValue.my_ind with
  | hstr s =>
    intro p lv
    obtain ⟨c, cs, hd, _, _, _⟩ := dumpVal_head p lv (.str s)
    rw [hd, show szV (.str s) = 1 from rfl]
    simp
  | hint n =>
    intro p lv
    obtain ⟨c, cs, hd, _, _, _⟩ := dumpVal_head p lv (.int n)
    rw [hd, show szV (.int n) = 1 from rfl]
    simp
  | hfloat m e =>
    intro p lv
    obtain ⟨c, cs, hd, _, _, _⟩ := dumpVal_head p lv (.float m e)
    rw [hd, show szV (.float m e) = 1 from rfl]
    simp
  | hinf =>
    intro p lv
    rw [show dumpVal p lv .inf = ['I', 'n', 'f', 'i', 'n', 'i', 't', 'y'] from rfl]
    decide
  | hninf =>
    intro p lv
    rw [show dumpVal p lv .negInf = ['-', 'I', 'n', 'f', 'i', 'n', 'i', 't', 'y'] from rfl]
    decide
  | hnan =>
    intro p lv
    rw [show dumpVal p lv .nan = ['N', 'a', 'N'] from rfl]
    decide
  | hbool b =>
    intro p lv
    cases b with
    | true =>
      rw [show dumpVal p lv (.bool true) = ['t', 'r', 'u', 'e'] from rfl]
      decide
    | false =>
      rw [show dumpVal p lv (.bool false) = ['f', 'a', 'l', 's', 'e'] from rfl]
      decide
  | hnull =>
    intro p lv
    rw [show dumpVal p lv .null = ['n', 'u', 'l', 'l'] from rfl]
    decide
  | harr xs ihmem =>
    intro p lv
    cases xs with
    | nil =>
      rw [show dumpVal p lv (.arr []) = ['[', ']'] from rfl]
      decide
    | cons x t =>
      have h1 := ihmem x (by simp) p (lv + 1)
      have h2 := szL_le_elemsRest p (lv + 1) t (fun y hy => ihmem y (by simp [hy]) p (lv + 1))
      rw [show dumpVal p lv (.arr (x :: t)) = '[' :: (nlIndent p (lv + 1) ++
        dumpVal p (lv + 1) x ++ dumpElemsRest p (lv + 1) t ++ nlIndent p lv ++ [']']) from rfl,
        show szV (.arr (x :: t)) = 1 + szL (x :: t) from rfl,
        show szL (x :: t) = 1 + max (szV x) (szL t) from rfl]
      simp only [List.length_cons, List.length_append, List.length_nil]
      omega
  | hobj es ihmem =>
    intro p lv
    cases es with
    | nil =>
      rw [show dumpVal p lv (.obj []) = ['\x7b', '\x7d'] from rfl]
      decide
    | cons kv t =>
      have h1 := ihmem kv (by simp) p (lv + 1)
      have h2 := szE_le_entriesRest p (lv + 1) t (fun y hy => ihmem y (by simp [hy]) p (lv + 1))
      have hec := entryChars_length kv.1 (dumpVal p (lv + 1) kv.2)
      rw [show dumpVal p lv (.obj (kv :: t)) = '\x7b' :: (nlIndent p (lv + 1) ++
        entryChars kv.1 (dumpVal p (lv + 1) kv.2) ++ dumpEntriesRest p (lv + 1) t ++
        nlIndent p lv ++ ['\x7d']) from rfl,
        show szV (.obj (kv :: t)) = 1 + szE (kv :: t) from rfl,
        show szE (kv :: t) = 1 + max (szV kv.2) (szE t) from rfl]
      simp only [List.length_cons, List.length_append, List.length_nil]
      omega

/-! ### Round trip, part 8: json.loads inverts json.dumps on one value -/

theorem jsonLoads_dump (p : Bool) (v : JValue) (h : wfV v = true) :
    jsonLoads ⟨dumpVal p 0 v⟩ = some v := by
  have hsz := szV_le_dump v p 0
  have hp := (parse_dump_all ((dumpVal p 0 v).length + 1)).1 p 0 v [] h (by omega) trivial
  rw [List.append_nil] at hp
  have hsw : skipWs (dumpVal p 0 v) = dumpVal p 0 v := by
    have h2 := skipWs_dump p 0 v []
    rwa [List.append_nil] at h2
  simp only [jsonLoads]
  rw [hsw, hp]
  simp +decide only [if_true, if_false]

/-! ### Round trip, part 9: dict invariants -/

theorem mem_dictKeys_dictSet {β : Type} :
    ∀ (d : List (String × β)) (k : String) (v : β) (a : String),
      a ∈ dictKeys (dictSet d k v) ↔ a ∈ dictKeys d ∨ a = k := by
  intro d k v a
  induction d with
  | nil => simp [dictSet, dictKeys]
  | cons kv0 t ih =>
    obtain ⟨k0, v0⟩ := kv0
    by_cases h0 : k0 = k
    · rw [show dictSet ((k0, v0) :: t) k v = (k0, v) :: t from by
        rw [show dictSet ((k0, v0) :: t) k v =
          if k0 = k then (k0, v) :: t else (k0, v0) :: dictSet t k v from rfl, if_pos h0]]
      subst h0
      rw [show dictKeys ((k0, v) :: t) = k0 :: dictKeys t from rfl,
        show dictKeys ((k0, v0) :: t) = k0 :: dictKeys t from rfl]
      constructor
      · exact fun h => Or.inl h
      · intro h
        rcases h with h | h
        · exact h
        · rw [h]
          exact List.mem_cons_self k0 (dictKeys t)
    · rw [show dictSet ((k0, v0) :: t) k v = (k0, v0) :: dictSet t k v from by
        rw [show dictSet ((k0, v0) :: t) k v =
          if k0 = k then (k0, v) :: t else (k0, v0) :: dictSet t k v from rfl, if_neg h0]]
      simp only [show dictKeys ((k0, v0) :: dictSet t k v) = k0 :: dictKeys (dictSet t k v)
        from rfl, show dictKeys ((k0, v0) :: t) = k0 :: dictKeys t from rfl, List.mem_cons]
      rw [ih]
      tauto

theorem nodup_dictKeys_dictSet {β : Type} :
    ∀ (d : List (String × β)) (k : String) (v : β),
      (dictKeys d).Nodup → (dictKeys (dictSet d k v)).Nodup := by
  intro d k v
  induction d with
  | nil =>
    intro _
    simp [dictSet, dictKeys]
  | cons kv0 t ih =>
    intro hnd
    obtain ⟨k0, v0⟩ := kv0
    rw [show dictKeys ((k0, v0) :: t) = k0 :: dictKeys t from rfl, List.nodup_cons] at hnd
    by_cases h0 : k0 = k
    · rw [show dictSet ((k0, v0) :: t) k v = (k0, v) :: t from by
        rw [show dictSet ((k0, v0) :: t) k v =
          if k0 = k then (k0, v) :: t else (k0, v0) :: dictSet t k v from rfl, if_pos h0]]
      rw [show dictKeys ((k0, v) :: t) = k0 :: dictKeys t from rfl, List.nodup_cons]
      exact hnd
    · rw [show dictSet ((k0, v0) :: t) k v = (k0, v0) :: dictSet t k v from by
        rw [show dictSet ((k0, v0) :: t) k v =
          if k0 = k then (k0, v) :: t else (k0, v0) :: dictSet t k v from rfl, if_neg h0]]
      rw [show dictKeys ((k0, v0) :: dictSet t k v) = k0 :: dictKeys (dictSet t k v) from rfl,
        List.nodup_cons]
      refine ⟨fun hmem => ?_, ih hnd.2⟩
      rcases (mem_dictKeys_dictSet t k v k0).1 hmem with h | h
      · exact hnd.1 h
      · exact h0 h

theorem dictSet_mem_sub {β : Type} :
    ∀ (d : List (String × β)) (k : String) (v : β) (kv : String × β),
      kv ∈ dictSet d k v → kv ∈ d ∨ kv = (k, v) := by
  intro d k v kv
  induction d with
  | nil =>
    intro h
    simp [dictSet] at h
    exact Or.inr h
  | cons kv0 t ih =>
    intro h
    obtain ⟨k0, v0⟩ := kv0
    by_cases h0 : k0 = k
    · rw [show dictSet ((k0, v0) :: t) k v = (k0, v) :: t from by
        rw [show dictSet ((k0, v0) :: t) k v =
          if k0 = k then (k0, v) :: t else (k0, v0) :: dictSet t k v from rfl, if_pos h0]] at h
      rcases List.mem_cons.1 h with h1 | h1
      · subst h0
        exact Or.inr h1
      · exact Or.inl (List.mem_cons.2 (Or.inr h1))
    · rw [show dictSet ((k0, v0) :: t) k v = (k0, v0) :: dictSet t k v from by
        rw [show dictSet ((k0, v0) :: t) k v =
          if k0 = k then (k0, v) :: t else (k0, v0) :: dictSet t k v from rfl, if_neg h0]] at h
      rcases List.mem_cons.1 h with h1 | h1
      · exact Or.inl (List.mem_cons.2 (Or.inl h1))
      · rcases ih h1 with h2 | h2
        · exact Or.inl (List.mem_cons.2 (Or.inr h2))
        · exact Or.inr h2

theorem nodup_foldl_dictSet {β : Type} :
    ∀ (l : List (String × β)) (acc : List (String × β)),
      (dictKeys acc).Nodup →
      (dictKeys (l.foldl (fun a kv => dictSet a kv.1 kv.2) acc)).Nodup := by
  intro l
  induction l with
  | nil => intro acc h; exact h
  | cons kv t ih =>
    intro acc h
    exact ih (dictSet acc kv.1 kv.2) (nodup_dictKeys_dictSet acc kv.1 kv.2 h)

theorem dictOfPairs_nodup {β : Type} (l : List (String × β)) :
    (dictKeys (dictOfPairs l)).Nodup := by
  unfold dictOfPairs
  exact nodup_foldl_dictSet l [] (by simp [dictKeys])

theorem wfL_mem_iff : ∀ xs : List JValue,
    wfL xs = true ↔ ∀ x ∈ xs, wfV x = true := by
  intro xs
  induction xs with
  | nil => simp [wfL]
  | cons x t ih =>
    rw [show wfL (x :: t) = (wfV x && wfL t) from rfl, Bool.and_eq_true, ih]
    constructor
    · intro h y hy
      rcases List.mem_cons.1 hy with rfl | hy2
      · exact h.1
      · exact h.2 y hy2
    · intro h
      exact ⟨h x (by simp), fun y hy => h y (by simp [hy])⟩

theorem wfE_mem_iff : ∀ es : List (String × JValue),
    wfE es = true ↔ ∀ kv ∈ es, wfV kv.2 = true := by
  intro es
  induction es with
  | nil => simp [wfE]
  | cons kv t ih =>
    rw [show wfE (kv :: t) = (wfV kv.2 && wfE t) from rfl, Bool.and_eq_true, ih]
    constructor
    · intro h y hy
      rcases List.mem_cons.1 hy with rfl | hy2
      · exact h.1
      · exact h.2 y hy2
    · intro h
      exact ⟨h kv (by simp), fun y hy => h y (by simp [hy])⟩

theorem wfE_dictSet (d : List (String × JValue)) (k : String) (v : JValue)
    (hd : wfE d = true) (hv : wfV v = true) : wfE (dictSet d k v) = true := by
  rw [wfE_mem_iff] at hd ⊢
  intro kv hkv
  rcases dictSet_mem_sub d k v kv hkv with h | h
  · exact hd kv h
  · rw [h]
    exact hv

theorem wfE_foldl_dictSet :
    ∀ (l : List (String × JValue)) (acc : List (String × JValue)),
      (∀ kv ∈ l, wfV kv.2 = true) → wfE acc = true →
      wfE (l.foldl (fun a kv => dictSet a kv.1 kv.2) acc) = true := by
  intro l
  induction l with
  | nil => intro acc _ h; exact h
  | cons kv t ih =>
    intro acc hl h
    exact ih (dictSet acc kv.1 kv.2) (fun y hy => hl y (by simp [hy]))
      (wfE_dictSet acc kv.1 kv.2 h (hl kv (by simp)))

theorem wfE_dictOfPairs (l : List (String × JValue)) (h : wfE l = true) :
    wfE (dictOfPairs l) = true := by
  unfold dictOfPairs
  exact wfE_foldl_dictSet l [] ((wfE_mem_iff l).1 h) rfl

theorem mem_dictKeys_of_mem {β : Type} {es : List (String × β)} {kv : String × β}
    (h : kv ∈ es) : kv.1 ∈ dictKeys es :=
  List.mem_map.2 ⟨kv, h, rfl⟩

theorem dictGet_of_mem_nodup {β : Type} :
    ∀ (es : List (String × β)) (k : String) (v : β),
      (dictKeys es).Nodup → (k, v) ∈ es → dictGet es k = some v := by
  intro es k v
  induction es with
  | nil => intro _ h; simp at h
  | cons kv0 t ih =>
    intro hnd hmem
    obtain ⟨k0, v0⟩ := kv0
    rw [show dictKeys ((k0, v0) :: t) = k0 :: dictKeys t from rfl, List.nodup_cons] at hnd
    rcases List.mem_cons.1 hmem with h1 | h1
    · obtain ⟨h2, h3⟩ := Prod.mk.inj h1
      rw [show dictGet ((k0, v0) :: t) k = if k0 = k then some v0 else dictGet t k from rfl,
        if_pos h2.symm, h3]
    · have hk : k0 ≠ k := by
        intro he
        subst he
        exact hnd.1 (mem_dictKeys_of_mem h1)
      rw [show dictGet ((k0, v0) :: t) k = if k0 = k then some v0 else dictGet t k from rfl,
        if_neg hk]
      exact ih hnd.2 h1

/-! ### Round trip, part 10: every value the parser returns is well formed -/

theorem mkFloatVal_wf (m1 : Int) (e10 : Int) : wfV (mkFloatVal m1 e10) = true := by
  unfold mkFloatVal
  by_cases h : 0 ≤ e10
  · rw [if_pos h]
    rfl
  · rw [if_neg h]
    have hn := normFloat_norm m1 (-e10).toNat
    show wfV (.float (normFloat m1 (-e10).toNat).1 (normFloat m1 (-e10).toNat).2) = true
    rw [show wfV (.float (normFloat m1 (-e10).toNat).1 (normFloat m1 (-e10).toNat).2) =
      (decide ((normFloat m1 (-e10).toNat).2 = 0) ||
        (decide ((normFloat m1 (-e10).toNat).1 ≠ 0) &&
          decide ((normFloat m1 (-e10).toNat).1 % 10 ≠ 0))) from rfl]
    rcases hn with h1 | ⟨h1, h2⟩
    · simp [h1]
    · simp [h1, h2]

theorem parseNumTail_wf (neg : Bool) (cs1 : List Char) (v : JValue) (r : List Char)
    (h : parseNumTail neg cs1 = some (v, r)) : wfV v = true := by
  unfold parseNumTail at h
  cases hu : parseUIntDigits cs1 with
  | none => rw [hu] at h; simp at h
  | some q =>
    obtain ⟨ip, cs2⟩ := q
    rw [hu] at h
    simp only [] at h
    split at h
    · obtain ⟨hv, _⟩ := Prod.mk.inj (Option.some.inj h)
      rw [← hv]
      rfl
    · obtain ⟨hv, _⟩ := Prod.mk.inj (Option.some.inj h)
      rw [← hv]
      exact mkFloatVal_wf _ _

theorem parseNumber_wf (cs : List Char) (v : JValue) (r : List Char)
    (h : parseNumber cs = some (v, r)) : wfV v = true := by
  unfold parseNumber at h
  cases cs with
  | nil => simp at h
  | cons c rest =>
    simp only [] at h
    by_cases hc : c = '-'
    · rw [if_pos hc] at h
      exact parseNumTail_wf true rest v r h
    · rw [if_neg hc] at h
      exact parseNumTail_wf false (c :: rest) v r h

theorem parse_wf_all : ∀ fuel : Nat,
    (∀ cs v rest, parseVal fuel cs = some (v, rest) → wfV v = true) ∧
    (∀ cs l rest, parseItems fuel cs = some (l, rest) → wfL l = true) ∧
    (∀ cs l rest, parseMembers fuel cs = some (l, rest) → wfE l = true) := by
  intro fuel
  induction fuel with
  | zero =>
    refine ⟨?_, ?_, ?_⟩ <;> intro cs v rest h <;>
      simp [parseVal, parseItems, parseMembers] at h
  | succ f ih =>
    refine ⟨?_, ?_, ?_⟩
    · intro cs v rest h
      simp only [parseVal] at h
      cases cs with
      | nil => simp at h
      | cons c rest1 =>
        simp only [] at h
        by_cases h1 : c = '"'
        · rw [if_pos h1] at h
          rw [Option.map_eq_some'] at h
          obtain ⟨⟨k1, r1⟩, _, hpair⟩ := h
          simp only [] at hpair
          obtain ⟨hv, _⟩ := Prod.mk.inj hpair
          rw [← hv]
          rfl
        · rw [if_neg h1] at h
          by_cases h2 : c = '\x7b'
          · rw [if_pos h2] at h
            by_cases h3 : (skipWs rest1).head? = some '\x7d'
            · rw [if_pos h3] at h
              obtain ⟨hv, _⟩ := Prod.mk.inj (Option.some.inj h)
              rw [← hv]
              decide
            · rw [if_neg h3] at h
              rw [Option.map_eq_some'] at h
              obtain ⟨⟨l1, r1⟩, hm, hpair⟩ := h
              simp only [] at hpair
              obtain ⟨hv, _⟩ := Prod.mk.inj hpair
              rw [← hv]
              have hwe := ih.2.2 _ _ _ hm
              rw [show wfV (.obj (dictOfPairs l1)) =
                (decide (dictKeys (dictOfPairs l1)).Nodup && wfE (dictOfPairs l1)) from rfl,
                Bool.and_eq_true]
              exact ⟨by simp [dictOfPairs_nodup l1], wfE_dictOfPairs l1 hwe⟩
          · rw [if_neg h2] at h
            by_cases h4 : c = '['
            · rw [if_pos h4] at h
              by_cases h5 : (skipWs rest1).head? = some ']'
              · rw [if_pos h5] at h
                obtain ⟨hv, _⟩ := Prod.mk.inj (Option.some.inj h)
                rw [← hv]
                rfl
              · rw [if_neg h5] at h
                rw [Option.map_eq_some'] at h
                obtain ⟨⟨l1, r1⟩, hm, hpair⟩ := h
                simp only [] at hpair
                obtain ⟨hv, _⟩ := Prod.mk.inj hpair
                rw [← hv]
                exact ih.2.1 _ _ _ hm
            · rw [if_neg h4] at h
              cases hn1 : dropLit nullLit (c :: rest1) with
              | some r1 =>
                rw [hn1] at h
                simp only [] at h
                obtain ⟨hv, _⟩ := Prod.mk.inj (Option.some.inj h)
                rw [← hv]
                rfl
              | none =>
                rw [hn1] at h
                simp only [] at h
                cases hn2 : dropLit trueLit (c :: rest1) with
                | some r1 =>
                  rw [hn2] at h
                  simp only [] at h
                  obtain ⟨hv, _⟩ := Prod.mk.inj (Option.some.inj h)
                  rw [← hv]
                  rfl
                | none =>
                  rw [hn2] at h
                  simp only [] at h
                  cases hn3 : dropLit falseLit (c :: rest1) with
                  | some r1 =>
                    rw [hn3] at h
                    simp only [] at h
                    obtain ⟨hv, _⟩ := Prod.mk.inj (Option.some.inj h)
                    rw [← hv]
                    rfl
                  | none =>
                    rw [hn3] at h
                    simp only [] at h
                    cases hn4 : dropLit nanLit (c :: rest1) with
                    | some r1 =>
                      rw [hn4] at h
                      simp only [] at h
                      obtain ⟨hv, _⟩ := Prod.mk.inj (Option.some.inj h)
                      rw [← hv]
                      rfl
                    | none =>
                      rw [hn4] at h
                      simp only [] at h
                      cases hn5 : dropLit infLit (c :: rest1) with
                      | some r1 =>
                        rw [hn5] at h
                        simp only [] at h
                        obtain ⟨hv, _⟩ := Prod.mk.inj (Option.some.inj h)
                        rw [← hv]
                        rfl
                      | none =>
                        rw [hn5] at h
                        simp only [] at h
                        cases hn6 : dropLit negInfLit (c :: rest1) with
                        | some r1 =>
                          rw [hn6] at h
                          simp only [] at h
                          obtain ⟨hv, _⟩ := Prod.mk.inj (Option.some.inj h)
                          rw [← hv]
                          rfl
                        | none =>
                          rw [hn6] at h
                          simp only [] at h
                          exact parseNumber_wf _ _ _ h
    · intro cs l rest h
      simp only [parseItems] at h
      cases hpv : parseVal f (skipWs cs) with
      | none => rw [hpv] at h; simp at h
      | some q =>
        obtain ⟨v0, r⟩ := q
        rw [hpv] at h
        simp only [] at h
        cases hsw : skipWs r with
        | nil => rw [hsw] at h; simp at h
        | cons c r2 =>
          rw [hsw] at h
          simp only [] at h
          by_cases hc : c = ']'
          · rw [if_pos hc] at h
            obtain ⟨hv, _⟩ := Prod.mk.inj (Option.some.inj h)
            rw [← hv]
            rw [show wfL [v0] = (wfV v0 && wfL []) from rfl, Bool.and_eq_true]
            exact ⟨ih.1 _ _ _ hpv, rfl⟩
          · rw [if_neg hc] at h
            by_cases hc2 : c = ','
            · rw [if_pos hc2] at h
              rw [Option.map_eq_some'] at h
              obtain ⟨⟨l2, r3⟩, hrec, hpair⟩ := h
              simp only [] at hpair
              obtain ⟨hv, _⟩ := Prod.mk.inj hpair
              rw [← hv]
              rw [show wfL (v0 :: l2) = (wfV v0 && wfL l2) from rfl, Bool.and_eq_true]
              exact ⟨ih.1 _ _ _ hpv, ih.2.1 _ _ _ hrec⟩
            · rw [if_neg hc2] at h
              simp at h
    · intro cs l rest h
      simp only [parseMembers] at h
      cases cs with
      | nil => simp at h
      | cons c rest1 =>
        simp only [] at h
        by_cases hc : c = '"'
        · rw [if_pos hc] at h
          cases hps : parseStrBody (rest1.length + 1) rest1 with
          | none => rw [hps] at h; simp at h
          | some q =>
            obtain ⟨k1, r1⟩ := q
            rw [hps] at h
            simp only [] at h
            cases hsw : skipWs r1 with
            | nil => rw [hsw] at h; simp at h
            | cons c2 r2 =>
              rw [hsw] at h
              simp only [] at h
              by_cases hc2 : c2 = ':'
              · rw [if_pos hc2] at h
                cases hpv : parseVal f (skipWs r2) with
                | none => rw [hpv] at h; simp at h
                | some q2 =>
                  obtain ⟨v0, r3⟩ := q2
                  rw [hpv] at h
                  simp only [] at h
                  cases hsw2 : skipWs r3 with
                  | nil => rw [hsw2] at h; simp at h
                  | cons c3 r4 =>
                    rw [hsw2] at h
                    simp only [] at h
                    by_cases hc3 : c3 = '\x7d'
                    · rw [if_pos hc3] at h
                      obtain ⟨hv, _⟩ := Prod.mk.inj (Option.some.inj h)
                      rw [← hv]
                      rw [show wfE [(⟨k1⟩, v0)] = (wfV v0 && wfE []) from rfl,
                        Bool.and_eq_true]
                      exact ⟨ih.1 _ _ _ hpv, rfl⟩
                    · rw [if_neg hc3] at h
                      by_cases hc4 : c3 = ','
                      · rw [if_pos hc4] at h
                        rw [Option.map_eq_some'] at h
                        obtain ⟨⟨l2, r5⟩, hrec, hpair⟩ := h
                        simp only [] at hpair
                        obtain ⟨hv, _⟩ := Prod.mk.inj hpair
                        rw [← hv]
                        rw [show wfE ((⟨k1⟩, v0) :: l2) = (wfV v0 && wfE l2) from rfl,
                          Bool.and_eq_true]
                        exact ⟨ih.1 _ _ _ hpv, ih.2.2 _ _ _ hrec⟩
                      · rw [if_neg hc4] at h
                        simp at h
              · rw [if_neg hc2] at h
                simp at h
        · rw [if_neg hc] at h
          simp at h

theorem jsonLoads_wf (s : String) (v : JValue) (h : jsonLoads s = some v) :
    wfV v = true := by
  unfold jsonLoads at h
  cases hpv : parseVal (s.data.length + 1) (skipWs s.data) with
  | none => rw [hpv] at h; simp at h
  | some q =>
    obtain ⟨v0, rest⟩ := q
    rw [hpv] at h
    simp only [] at h
    by_cases hr : skipWs rest = []
    · rw [if_pos hr] at h
      rw [← Option.some.inj h]
      exact (parse_wf_all (s.data.length + 1)).1 _ _ _ hpv
    · rw [if_neg hr] at h
      simp at h

theorem pyFloat_wf (l : List Char) (v : JValue) (h : pyFloat? l = some v) :
    wfV v = true := by
  unfold pyFloat? at h
  cases l with
  | nil => simp at h
  | cons c rest =>
    simp only [] at h
    by_cases hs1 : c = '-'
    · rw [if_pos hs1] at h
      split at h
      · rw [← Option.some.inj h]
        split
        · rfl
        · rfl
      · split at h
        · rw [← Option.some.inj h]
          rfl
        · split at h
          · simp at h
          · split at h
            · rw [← Option.some.inj h]
              exact mkFloatVal_wf _ _
            · simp at h
    · rw [if_neg hs1] at h
      by_cases hs2 : c = '+'
      · rw [if_pos hs2] at h
        split at h
        · rw [← Option.some.inj h]
          split
          · rfl
          · rfl
        · split at h
          · rw [← Option.some.inj h]
            rfl
          · split at h
            · simp at h
            · split at h
              · rw [← Option.some.inj h]
                exact mkFloatVal_wf _ _
              · simp at h
      · rw [if_neg hs2] at h
        split at h
        · rw [← Option.some.inj h]
          split
          · rfl
          · rfl
        · split at h
          · rw [← Option.some.inj h]
            rfl
          · split at h
            · simp at h
            · split at h
              · rw [← Option.some.inj h]
                exact mkFloatVal_wf _ _
              · simp at h

theorem stripQuotes_wf (v : List Char) : wfV (stripQuotes v) = true := by
  unfold stripQuotes
  split
  · rfl
  · rfl

theorem wf_parse_value (s : String) : wfV (parse_value s) = true := by
  unfold parse_value
  split
  · rfl
  · simp only []
    split
    · split
      · rename_i j hj
        exact jsonLoads_wf _ _ hj
      · rfl
    · split
      · rfl
      · split
        · rfl
        · split
          · split
            · rfl
            · exact stripQuotes_wf _
          · split
            · rename_i j hj
              exact pyFloat_wf _ _ hj
            · exact stripQuotes_wf _

theorem wf_assembleSlots (slots : List (String × String)) :
    wfV (.obj (assembleSlots slots)) = true := by
  have key : ∀ (l : List (String × String)) (acc : List (String × JValue)),
      (dictKeys acc).Nodup → wfE acc = true →
      (dictKeys (l.foldl (fun obj kv =>
          if kv.1 ≠ "" ∧ pyStrip kv.1 ≠ "" then dictSet obj (pyStrip kv.1) (parse_value kv.2)
          else obj) acc)).Nodup ∧
        wfE (l.foldl (fun obj kv =>
          if kv.1 ≠ "" ∧ pyStrip kv.1 ≠ "" then dictSet obj (pyStrip kv.1) (parse_value kv.2)
          else obj) acc) = true := by
    intro l
    induction l with
    | nil => intro acc ha1 ha2; exact ⟨ha1, ha2⟩
    | cons kv t ihl =>
      intro acc ha1 ha2
      simp only [List.foldl_cons]
      by_cases hcnd : kv.1 ≠ "" ∧ pyStrip kv.1 ≠ ""
      · rw [if_pos hcnd]
        exact ihl _ (nodup_dictKeys_dictSet acc _ _ ha1)
          (wfE_dictSet acc _ _ ha2 (wf_parse_value kv.2))
      · rw [if_neg hcnd]
        exact ihl _ ha1 ha2
  have h := key slots [] (by simp [dictKeys]) rfl
  rw [show wfV (.obj (assembleSlots slots)) =
    (decide (dictKeys (assembleSlots slots)).Nodup && wfE (assembleSlots slots)) from rfl,
    Bool.and_eq_true]
  exact ⟨by simp only [decide_eq_true_eq]; exact h.1, h.2⟩

/-! ### Round trip, part 11: sort_keys and the Python equality of the result -/

theorem szV_mem_le_szL : ∀ (xs : List JValue) (x : JValue), x ∈ xs → szV x ≤ szL xs := by
  intro xs
  induction xs with
  | nil => intro x hx; simp at hx
  | cons y t ih =>
    intro x hx
    have h4 : szL (y :: t) = 1 + max (szV y) (szL t) := rfl
    rcases List.mem_cons.1 hx with rfl | hx2
    · have h5 := Nat.le_max_left (szV x) (szL t)
      omega
    · have h5 := ih x hx2
      have h6 := Nat.le_max_right (szV y) (szL t)
      omega

theorem szV_mem_le_szE : ∀ (es : List (String × JValue)) (kv : String × JValue),
    kv ∈ es → szV kv.2 ≤ szE es := by
  intro es
  induction es with
  | nil => intro kv h; simp at h
  | cons e0 t ih =>
    intro kv h
    have h4 : szE (e0 :: t) = 1 + max (szV e0.2) (szE t) := rfl
    rcases List.mem_cons.1 h with rfl | h2
    · have h5 := Nat.le_max_left (szV kv.2) (szE t)
      omega
    · have h5 := ih kv h2
      have h6 := Nat.le_max_right (szV e0.2) (szE t)
      omega

theorem sortKeysE_keys : ∀ es, dictKeys (sortKeysE es) = dictKeys es := by
  intro es
  induction es with
  | nil => rfl
  | cons kv t ih =>
    obtain ⟨k, v⟩ := kv
    rw [show sortKeysE ((k, v) :: t) = (k, sortKeysV v) :: sortKeysE t from rfl,
      show dictKeys ((k, sortKeysV v) :: sortKeysE t) = k :: dictKeys (sortKeysE t) from rfl,
      show dictKeys ((k, v) :: t) = k :: dictKeys t from rfl, ih]

theorem sortKeysE_length : ∀ es, (sortKeysE es).length = es.length := by
  intro es
  induction es with
  | nil => rfl
  | cons kv t ih =>
    obtain ⟨k, v⟩ := kv
    rw [show sortKeysE ((k, v) :: t) = (k, sortKeysV v) :: sortKeysE t from rfl]
    simp [ih]

theorem mem_sortKeysE_elim : ∀ (es : List (String × JValue)) (kv : String × JValue),
    kv ∈ sortKeysE es → ∃ v0, (kv.1, v0) ∈ es ∧ kv.2 = sortKeysV v0 := by
  intro es
  induction es with
  | nil => intro kv h; simp [sortKeysE] at h
  | cons e0 t ih =>
    intro kv h
    obtain ⟨k, v⟩ := e0
    rw [show sortKeysE ((k, v) :: t) = (k, sortKeysV v) :: sortKeysE t from rfl] at h
    rcases List.mem_cons.1 h with h1 | h1
    · refine ⟨v, ?_, ?_⟩
      · rw [h1]
        exact List.mem_cons_self _ _
      · rw [h1]
    · obtain ⟨v0, hm, he⟩ := ih kv h1
      exact ⟨v0, List.mem_cons.2 (Or.inr hm), he⟩

theorem mem_sortKeysL_elim : ∀ (xs : List JValue) (y : JValue),
    y ∈ sortKeysL xs → ∃ x ∈ xs, y = sortKeysV x := by
  intro xs
  induction xs with
  | nil => intro y h; simp [sortKeysL] at h
  | cons x t ih =>
    intro y h
    rw [show sortKeysL (x :: t) = sortKeysV x :: sortKeysL t from rfl] at h
    rcases List.mem_cons.1 h with h1 | h1
    · exact ⟨x, by simp, h1⟩
    · obtain ⟨x0, hm, he⟩ := ih y h1
      exact ⟨x0, by simp [hm], he⟩

theorem wf_sortKeysV : ∀ (n : Nat) (v : JValue), szV v < n → wfV v = true →
    wfV (sortKeysV v) = true := by
  intro n
  induction n using Nat.strong_induction_on with
  | _ n ih =>
    intro v hsz hwf
    cases v with
    | str s => exact hwf
    | int m => exact hwf
    | float m e => exact hwf
    | inf => exact hwf
    | negInf => exact hwf
    | nan => exact hwf
    | bool b => exact hwf
    | null => exact hwf
    | arr xs =>
      rw [show sortKeysV (.arr xs) = .arr (sortKeysL xs) from rfl,
        show wfV (.arr (sortKeysL xs)) = wfL (sortKeysL xs) from rfl, wfL_mem_iff]
      intro y hy
      obtain ⟨x, hx, he⟩ := mem_sortKeysL_elim xs y hy
      rw [he]
      have hszx : szV x ≤ szL xs := szV_mem_le_szL xs x hx
      have h4 : szV (.arr xs) = 1 + szL xs := rfl
      have hwfx : wfV x = true := (wfL_mem_iff xs).1 (show wfL xs = true from hwf) x hx
      exact ih (szV (.arr xs)) (by omega) x (by omega) hwfx
    | obj es =>
      have hwe := wfV_obj_elim es hwf
      have hperm := List.mergeSort_perm (sortKeysE es) (fun a b => decide (a.1 ≤ b.1))
      rw [show sortKeysV (.obj es) =
        .obj ((sortKeysE es).mergeSort (fun a b => decide (a.1 ≤ b.1))) from rfl,
        show wfV (.obj ((sortKeysE es).mergeSort (fun a b => decide (a.1 ≤ b.1)))) =
          (decide (dictKeys ((sortKeysE es).mergeSort (fun a b => decide (a.1 ≤ b.1)))).Nodup &&
            wfE ((sortKeysE es).mergeSort (fun a b => decide (a.1 ≤ b.1)))) from rfl,
        Bool.and_eq_true]
      constructor
      · simp only [decide_eq_true_eq]
        have hpk : List.Perm
            (dictKeys ((sortKeysE es).mergeSort (fun a b => decide (a.1 ≤ b.1))))
            (dictKeys (sortKeysE es)) := hperm.map _
        exact hpk.nodup_iff.2 (by rw [sortKeysE_keys]; exact hwe.1)
      · rw [wfE_mem_iff]
        intro kv hkv
        have hkv2 : kv ∈ sortKeysE es := hperm.mem_iff.1 hkv
        obtain ⟨v0, hm, he⟩ := mem_sortKeysE_elim es kv hkv2
        rw [he]
        have hszv : szV v0 ≤ szE es := szV_mem_le_szE es (kv.1, v0) hm
        have h4 : szV (.obj es) = 1 + szE es := rfl
        have hwfv : wfV v0 = true := (wfE_mem_iff es).1 hwe.2 (kv.1, v0) hm
        exact ih (szV (.obj es)) (by omega) v0 (by omega) hwfv

theorem pyEqL_refl_of : ∀ xs : List JValue, (∀ x ∈ xs, pyEqV x x = true) →
    pyEqL xs xs = true := by
  intro xs
  induction xs with
  | nil => intro _; rfl
  | cons x t ih =>
    intro h
    rw [show pyEqL (x :: t) (x :: t) = (pyEqV x x && pyEqL t t) from rfl, Bool.and_eq_true]
    exact ⟨h x (by simp), ih (fun y hy => h y (by simp [hy]))⟩

theorem pyEqL_sort_of : ∀ xs : List JValue, (∀ x ∈ xs, pyEqV (sortKeysV x) x = true) →
    pyEqL (sortKeysL xs) xs = true := by
  intro xs
  induction xs with
  | nil => intro _; rfl
  | cons x t ih =>
    intro h
    rw [show sortKeysL (x :: t) = sortKeysV x :: sortKeysL t from rfl,
      show pyEqL (sortKeysV x :: sortKeysL t) (x :: t) =
        (pyEqV (sortKeysV x) x && pyEqL (sortKeysL t) t) from rfl, Bool.and_eq_true]
    exact ⟨h x (by simp), ih (fun y hy => h y (by simp [hy]))⟩

theorem pyEqE_of_forall : ∀ (l es2 : List (String × JValue)),
    (∀ kv ∈ l, ∃ w, dictGet es2 kv.1 = some w ∧ pyEqV kv.2 w = true) →
    pyEqE l es2 = true := by
  intro l es2
  induction l with
  | nil => intro _; rfl
  | cons kv t ih =>
    intro h
    obtain ⟨w, hw, hpe⟩ := h kv (by simp)
    rw [show pyEqE (kv :: t) es2 =
      ((match dictGet es2 kv.1 with | some w => pyEqV kv.2 w | none => false) && pyEqE t es2)
      from rfl, Bool.and_eq_true]
    constructor
    · simp only [hw]
      exact hpe
    · exact ih (fun y hy => h y (by simp [hy]))

theorem pyEqV_refl : ∀ (n : Nat) (v : JValue), szV v < n → wfV v = true →
    pyEqV v v = true := by
  intro n
  induction n using Nat.strong_induction_on with
  | _ n ih =>
    intro v hsz hwf
    cases v with
    | str s => simp [pyEqV]
    | int m => simp [pyEqV]
    | float m e => simp [pyEqV]
    | inf => rfl
    | negInf => rfl
    | nan => rfl
    | bool b => simp [pyEqV]
    | null => rfl
    | arr xs =>
      rw [show pyEqV (.arr xs) (.arr xs) = pyEqL xs xs from rfl]
      refine pyEqL_refl_of xs (fun x hx => ?_)
      have h4 : szV (.arr xs) = 1 + szL xs := rfl
      have h5 := szV_mem_le_szL xs x hx
      exact ih (szV (.arr xs)) (by omega) x (by omega)
        ((wfL_mem_iff xs).1 (show wfL xs = true from hwf) x hx)
    | obj es =>
      have hwe := wfV_obj_elim es hwf
      rw [show pyEqV (.obj es) (.obj es) =
        (decide (es.length = es.length) && pyEqE es es) from rfl, Bool.and_eq_true]
      refine ⟨by simp, pyEqE_of_forall es es (fun kv hkv => ?_)⟩
      refine ⟨kv.2, dictGet_of_mem_nodup es kv.1 kv.2 hwe.1 hkv, ?_⟩
      have h4 : szV (.obj es) = 1 + szE es := rfl
      have h5 := szV_mem_le_szE es kv hkv
      exact ih (szV (.obj es)) (by omega) kv.2 (by omega) ((wfE_mem_iff es).1 hwe.2 kv hkv)

theorem pyEq_sortKeysV : ∀ (n : Nat) (v : JValue), szV v < n → wfV v = true →
    pyEqV (sortKeysV v) v = true := by
  intro n
  induction n using Nat.strong_induction_on with
  | _ n ih =>
    intro v hsz hwf
    cases v with
    | str s => simp [sortKeysV, pyEqV]
    | int m => simp [sortKeysV, pyEqV]
    | float m e => simp [sortKeysV, pyEqV]
    | inf => rfl
    | negInf => rfl
    | nan => rfl
    | bool b => simp [sortKeysV, pyEqV]
    | null => rfl
    | arr xs =>
      rw [show sortKeysV (.arr xs) = .arr (sortKeysL xs) from rfl,
        show pyEqV (.arr (sortKeysL xs)) (.arr xs) = pyEqL (sortKeysL xs) xs from rfl]
      refine pyEqL_sort_of xs (fun x hx => ?_)
      have h4 : szV (.arr xs) = 1 + szL xs := rfl
      have h5 := szV_mem_le_szL xs x hx
      exact ih (szV (.arr xs)) (by omega) x (by omega)
        ((wfL_mem_iff xs).1 (show wfL xs = true from hwf) x hx)
    | obj es =>
      have hwe := wfV_obj_elim es hwf
      have hperm := List.mergeSort_perm (sortKeysE es) (fun a b => decide (a.1 ≤ b.1))
      rw [show sortKeysV (.obj es) =
        .obj ((sortKeysE es).mergeSort (fun a b => decide (a.1 ≤ b.1))) from rfl,
        show pyEqV (.obj ((sortKeysE es).mergeSort (fun a b => decide (a.1 ≤ b.1)))) (.obj es) =
          (decide (((sortKeysE es).mergeSort (fun a b => decide (a.1 ≤ b.1))).length =
              es.length) &&
            pyEqE ((sortKeysE es).mergeSort (fun a b => decide (a.1 ≤ b.1))) es) from rfl,
        Bool.and_eq_true]
      constructor
      · simp only [decide_eq_true_eq]
        rw [List.length_mergeSort]
        exact sortKeysE_length es
      · refine pyEqE_of_forall _ es (fun kv hkv => ?_)
        have hkv2 : kv ∈ sortKeysE es := hperm.mem_iff.1 hkv
        obtain ⟨v0, hm, he⟩ := mem_sortKeysE_elim es kv hkv2
        refine ⟨v0, dictGet_of_mem_nodup es kv.1 v0 hwe.1 hm, ?_⟩
        rw [he]
        have h4 : szV (.obj es) = 1 + szE es := rfl
        have h5 : szV v0 ≤ szE es := szV_mem_le_szE es (kv.1, v0) hm
        exact ih (szV (.obj es)) (by omega) v0 (by omega)
          ((wfE_mem_iff es).1 hwe.2 (kv.1, v0) hm)

/-- C8: for every slot set with valid keys and every combination of the
pretty_format and sort_keys flags, json.loads applied to the json.dumps
serialization of the object assembled by build_json succeeds and returns
the assembled object again — with keys sorted at every level when
sort_keys is set — and the returned value is Python-== to the assembled
object. -/
theorem claim_C8 (slots : List (String × String)) (pretty sortKeys : Bool) :
    jsonLoads (dumps pretty sortKeys (.obj (assembleSlots slots))) =
      some (if sortKeys then sortKeysV (.obj (assembleSlots slots))
        else .obj (assembleSlots slots)) ∧
    pyEqV (if sortKeys then sortKeysV (.obj (assembleSlots slots))
        else .obj (assembleSlots slots)) (.obj (assembleSlots slots)) = true := by
  have hwf := wf_assembleSlots slots
  cases sortKeys with
  | false =>
    refine ⟨?_, ?_⟩
    · show jsonLoads ⟨dumpVal pretty 0 (.obj (assembleSlots slots))⟩ =
        some (.obj (assembleSlots slots))
      exact jsonLoads_dump pretty _ hwf
    · show pyEqV (.obj (assembleSlots slots)) (.obj (assembleSlots slots)) = true
      exact pyEqV_refl (szV (.obj (assembleSlots slots)) + 1) _ (by omega) hwf
  | true =>
    have hwfs := wf_sortKeysV (szV (.obj (assembleSlots slots)) + 1) _ (by omega) hwf
    refine ⟨?_, ?_⟩
    · show jsonLoads ⟨dumpVal pretty 0 (sortKeysV (.obj (assembleSlots slots)))⟩ =
        some (sortKeysV (.obj (assembleSlots slots)))
      exact jsonLoads_dump pretty _ hwfs
    · show pyEqV (sortKeysV (.obj (assembleSlots slots))) (.obj (assembleSlots slots)) = true
      exact pyEq_sortKeysV (szV (.obj (assembleSlots slots)) + 1) _ (by omega) hwf

end JsonBuilder
